import Mathlib

/-!
Verification of the privacy-loss-distribution (PLD) accountant
(`cc/accounting/privacy_loss_distribution.h`).

Embedding conventions.  The C++ code works with privacy losses on the grid
`i * h` (h = discretization_interval) and evaluates the hockey-stick
divergence at `e^epsilon`.  Every quantity that appears in the code only
through the exponential map is represented here by its exponential:

* `t : ℚ`   models `e^epsilon`  (so `epsilon >= 0` becomes `1 <= t`),
* `b : ℚ`   models `e^h`, the multiplicative grid base (`h > 0` becomes
  `1 < b`); the privacy-loss value `i * h` is represented by `b ^ i`,
* the reconstructed lower mass `m * e^(-i*h)` becomes `m * b ^ (-i)`.

The map `epsilon -> e^epsilon` is a strictly monotone bijection from the
reals onto the positive reals, so order, monotonicity and extremal
statements transfer verbatim between the two parameterisations.  All mass
arithmetic is exact (`ℚ` instead of IEEE doubles).
-/

/-- The C++ `EstimateType` enum (`kPessimistic` / `kOptimistic`). -/
inductive EstimateType where
  | kPessimistic : EstimateType
  | kOptimistic : EstimateType
deriving DecidableEq, Repr

/-- Error kinds surfaced through `absl::Status` (spec section 7). -/
inductive PLDError where
  | invalidParameter : PLDError
  | incompatiblePLDs : PLDError
  | unsupportedEstimateType : PLDError
  | numericOverflow : PLDError
  | deserializationError : PLDError
deriving DecidableEq, Repr

/-- A sparse probability mass function on the signed integer grid, as an
association list of (index, mass) entries; models
`ProbabilityMassFunction = absl::flat_hash_map<int, double>`.
The semantics of an entry list is the `mass` function below, which sums
all entries carrying a given index. -/
abbrev PMFEntries : Type := List (ℤ × ℚ)

/-- Probability mass the entry list `l` assigns to grid index `k`. -/
def mass (l : PMFEntries) (k : ℤ) : ℚ :=
  (l.map fun e => if e.1 = k then e.2 else 0).sum

/-- Total probability mass of an entry list. -/
def totalMass (l : PMFEntries) : ℚ := (l.map fun e => e.2).sum

/-! ### Small list-sum algebra -/

theorem sum_map_add {α : Type} (l : List α) (f g : α → ℚ) :
    (l.map fun x => f x + g x).sum = (l.map f).sum + (l.map g).sum := by
  induction l with
  | nil => simp
  | cons a l ih => simp [ih]; ring

theorem sum_map_sub {α : Type} (l : List α) (f g : α → ℚ) :
    (l.map fun x => f x - g x).sum = (l.map f).sum - (l.map g).sum := by
  induction l with
  | nil => simp
  | cons a l ih => simp [ih]; ring

theorem sum_map_mul_right {α : Type} (l : List α) (f : α → ℚ) (c : ℚ) :
    (l.map fun x => f x * c).sum = (l.map f).sum * c := by
  induction l with
  | nil => simp
  | cons a l ih => simp [ih]; ring

theorem sum_map_nonneg {α : Type} (l : List α) (f : α → ℚ)
    (h : ∀ x ∈ l, 0 ≤ f x) : 0 ≤ (l.map f).sum := by
  induction l with
  | nil => simp
  | cons a l ih =>
    simp only [List.map_cons, List.sum_cons]
    have ha := h a (List.mem_cons_self a l)
    have hl := ih fun x hx => h x (List.mem_cons_of_mem a hx)
    linarith

theorem sum_map_le {α : Type} (l : List α) (f g : α → ℚ)
    (h : ∀ x ∈ l, f x ≤ g x) : (l.map f).sum ≤ (l.map g).sum := by
  induction l with
  | nil => simp
  | cons a l ih =>
    simp only [List.map_cons, List.sum_cons]
    have ha := h a (List.mem_cons_self a l)
    have hl := ih fun x hx => h x (List.mem_cons_of_mem a hx)
    linarith

theorem sum_ite_single (K : List ℤ) (hK : K.Nodup) (c : ℤ) (hc : c ∈ K)
    (f : ℤ → ℚ) :
    (K.map fun k => if c = k then f k else 0).sum = f c := by
  induction K with
  | nil => cases hc
  | cons a K ih =>
    simp only [List.map_cons, List.sum_cons]
    rcases List.mem_cons.mp hc with h | h
    · subst h
      have : ∀ k ∈ K, (if c = k then f k else 0) = 0 := by
        intro k hk
        have : c ≠ k := by
          intro h2; subst h2; exact (List.nodup_cons.mp hK).1 hk
        simp [this]
      rw [if_pos rfl]
      have hz : (K.map fun k => if c = k then f k else 0).sum = 0 := by
        rw [List.sum_eq_zero]
        intro x hx
        rcases List.mem_map.mp hx with ⟨k, hk, hkx⟩
        rw [← hkx]; exact this k hk
      rw [hz]; ring
    · have hne : c ≠ a := by
        intro h2; subst h2; exact (List.nodup_cons.mp hK).1 h
      rw [if_neg hne, ih (List.nodup_cons.mp hK).2 h]; ring

@[simp] theorem mass_nil (k : ℤ) : mass [] k = 0 := rfl

theorem mass_cons (e : ℤ × ℚ) (l : PMFEntries) (k : ℤ) :
    mass (e :: l) k = (if e.1 = k then e.2 else 0) + mass l k := by
  simp [mass]

theorem mass_append (l1 l2 : PMFEntries) (k : ℤ) :
    mass (l1 ++ l2) k = mass l1 k + mass l2 k := by
  simp [mass]

theorem mass_reverse (l : PMFEntries) (k : ℤ) :
    mass l.reverse k = mass l k := by
  simp [mass, List.map_reverse, List.sum_reverse]

theorem mass_nonneg (l : PMFEntries) (k : ℤ) (h : ∀ e ∈ l, 0 ≤ e.2) :
    0 ≤ mass l k := by
  apply sum_map_nonneg
  intro e he
  by_cases hk : e.1 = k
  · simp [hk]; exact h e he
  · simp [hk]

theorem mass_eq_zero_of_keys (l : PMFEntries) (k : ℤ)
    (h : ∀ e ∈ l, e.1 ≠ k) : mass l k = 0 := by
  unfold mass
  rw [List.sum_eq_zero]
  intro x hx
  rcases List.mem_map.mp hx with ⟨e, he, hex⟩
  rw [← hex]
  simp [h e he]

theorem mass_of_nodup (l : PMFEntries)
    (hnd : (l.map Prod.fst).Nodup) (e : ℤ × ℚ) (he : e ∈ l) :
    mass l e.1 = e.2 := by
  induction l with
  | nil => cases he
  | cons a l ih =>
    rw [List.map_cons, List.nodup_cons] at hnd
    rcases List.mem_cons.mp he with h | h
    · subst h
      rw [mass_cons, if_pos rfl, mass_eq_zero_of_keys]
      · ring
      · intro e2 he2 hkey
        exact hnd.1 (hkey ▸ List.mem_map_of_mem Prod.fst he2)
    · rw [mass_cons, if_neg, ih hnd.2 h]
      · ring
      · intro hkey
        exact hnd.1 (hkey ▸ List.mem_map_of_mem Prod.fst h)

theorem totalMass_append (l1 l2 : PMFEntries) :
    totalMass (l1 ++ l2) = totalMass l1 + totalMass l2 := by
  simp [totalMass]

theorem totalMass_reverse (l : PMFEntries) :
    totalMass l.reverse = totalMass l := by
  simp [totalMass, List.map_reverse, List.sum_reverse]

theorem totalMass_nonneg (l : PMFEntries) (h : ∀ e ∈ l, 0 ≤ e.2) :
    0 ≤ totalMass l :=
  sum_map_nonneg l _ h

/-- Regrouping lemma: summing `mass l k * g k` over a duplicate-free key
list `K` that contains every key of `l` equals the entrywise sum
`sum_e (mass_e * g (key_e))`. -/
theorem sum_mass_mul (l : PMFEntries) (K : List ℤ) (hK : K.Nodup)
    (hsub : ∀ e ∈ l, e.1 ∈ K) (g : ℤ → ℚ) :
    (K.map fun k => mass l k * g k).sum = (l.map fun e => e.2 * g e.1).sum := by
  induction l with
  | nil => simp [mass]
  | cons a l ih =>
    have hstep : (K.map fun k => mass (a :: l) k * g k) =
        K.map fun k => ((if a.1 = k then a.2 * g k else 0) + mass l k * g k) := by
      apply List.map_congr_left
      intro k _
      rw [mass_cons]
      by_cases h : a.1 = k
      · simp [h]; ring
      · simp [h]
    rw [hstep, sum_map_add, sum_ite_single K hK a.1 (hsub a (List.mem_cons_self a l)) (fun k => a.2 * g k),
        ih fun e he => hsub e (List.mem_cons_of_mem a he)]
    simp

/-- Total mass through a covering duplicate-free key list. -/
theorem sum_mass_total (l : PMFEntries) (K : List ℤ) (hK : K.Nodup)
    (hsub : ∀ e ∈ l, e.1 ∈ K) :
    (K.map fun k => mass l k).sum = totalMass l := by
  have := sum_mass_mul l K hK hsub (fun _ => 1)
  simpa [totalMass] using this

/-! ### Rational ceiling/floor logarithms

In the exponential parameterisation the pessimistic rounding
`index = ceil(log(ratio) / h)` of the C++ code becomes
`qclog b ratio` = the least integer `i` with `ratio <= b ^ i`, which is
computable over `ℚ`.  The searches below walk the powers of `b` with an
explicitly sufficient fuel bound derived from the Bernoulli inequality. -/

/-- Number of extra factors of `b` needed on top of `p` to reach `r`
(0 if the fuel runs out first). -/
def stepsUntilGe (b r : ℚ) : ℚ → ℕ → ℕ
  | _, 0 => 0
  | p, fuel+1 => if r ≤ p then 0 else stepsUntilGe b r (p * b) fuel + 1

/-- Number of extra factors of `b` needed on top of `p` to exceed `s`
(0 if the fuel runs out first). -/
def stepsUntilGt (b s : ℚ) : ℚ → ℕ → ℕ
  | _, 0 => 0
  | p, fuel+1 => if s < p then 0 else stepsUntilGt b s (p * b) fuel + 1

/-- Fuel that certifiably suffices for the power searches at target `r`. -/
def geFuel (b r : ℚ) : ℕ := (⌈(r - 1) / (b - 1)⌉).toNat + 1

theorem stepsUntilGe_le (b r : ℚ) :
    ∀ (fuel : ℕ) (p : ℚ), (∃ n, n ≤ fuel ∧ r ≤ p * b ^ n) →
      r ≤ p * b ^ (stepsUntilGe b r p fuel) := by
  intro fuel
  induction fuel with
  | zero =>
    intro p ⟨n, hn, hrn⟩
    have : n = 0 := Nat.le_zero.mp hn
    subst this
    simpa [stepsUntilGe] using hrn
  | succ fuel ih =>
    intro p ⟨n, hn, hrn⟩
    by_cases hr : r ≤ p
    · simp [stepsUntilGe, hr]
    · have hn0 : n ≠ 0 := by
        intro h; subst h; simp at hrn; exact hr hrn
      rcases Nat.exists_eq_succ_of_ne_zero hn0 with ⟨m, rfl⟩
      have hm : m ≤ fuel := Nat.succ_le_succ_iff.mp hn
      have hrm : r ≤ (p * b) * b ^ m := by
        rw [mul_assoc, ← pow_succ']
        exact hrn
      rw [stepsUntilGe, if_neg hr, pow_succ', ← mul_assoc]
      exact ih (p * b) ⟨m, hm, hrm⟩

theorem stepsUntilGt_lower (b s : ℚ) :
    ∀ (fuel : ℕ) (p : ℚ), 1 ≤ stepsUntilGt b s p fuel →
      p * b ^ (stepsUntilGt b s p fuel - 1) ≤ s := by
  intro fuel
  induction fuel with
  | zero => intro p h; simp [stepsUntilGt] at h
  | succ fuel ih =>
    intro p h
    by_cases hs : s < p
    · rw [stepsUntilGt, if_pos hs] at h; omega
    · rw [stepsUntilGt, if_neg hs] at h ⊢
      rcases Nat.eq_zero_or_pos (stepsUntilGt b s (p * b) fuel) with h0 | h1
      · rw [h0]
        simpa using not_lt.mp hs
      · have := ih (p * b) h1
        rcases Nat.exists_eq_succ_of_ne_zero (Nat.pos_iff_ne_zero.mp h1) with ⟨m, hm⟩
        rw [hm] at this ⊢
        simp only [Nat.add_sub_cancel, Nat.succ_sub_one] at this ⊢
        rw [pow_succ', ← mul_assoc]
        exact this

theorem stepsUntilGt_pos (b s p : ℚ) (fuel : ℕ) (hf : 0 < fuel)
    (hs : ¬ s < p) : 1 ≤ stepsUntilGt b s p fuel := by
  rcases Nat.exists_eq_succ_of_ne_zero (Nat.pos_iff_ne_zero.mp hf) with ⟨m, rfl⟩
  rw [stepsUntilGt, if_neg hs]
  omega

theorem geFuel_spec (b r : ℚ) (hb : 1 < b) (hr : 1 ≤ r) :
    r ≤ 1 * b ^ geFuel b r := by
  have hb1 : (0:ℚ) < b - 1 := by linarith
  set x := (r - 1) / (b - 1) with hxdef
  have hx0 : 0 ≤ x := div_nonneg (by linarith) (le_of_lt hb1)
  have hceil : x ≤ ((⌈x⌉.toNat : ℤ) : ℚ) := by
    rw [Int.toNat_of_nonneg (Int.ceil_nonneg hx0)]
    exact Int.le_ceil x
  have hn : x ≤ (geFuel b r : ℚ) := by
    unfold geFuel
    push_cast
    push_cast at hceil
    linarith
  have hmul : r - 1 ≤ (geFuel b r : ℚ) * (b - 1) := by
    have h2 := mul_le_mul_of_nonneg_right hn (le_of_lt hb1)
    rw [hxdef, div_mul_cancel₀ _ (ne_of_gt hb1)] at h2
    exact h2
  have hbern : 1 + (geFuel b r : ℚ) * (b - 1) ≤ (1 + (b - 1)) ^ geFuel b r :=
    one_add_mul_le_pow (by linarith) _
  have hbb : (1 + (b - 1)) = b := by ring
  rw [hbb] at hbern
  rw [one_mul]
  linarith

/-- Least integer `i` with `r <= b ^ i` (for `b > 1`, `r > 0`): the
exponential-domain form of the pessimistic rounding `ceil(log_b r)`. -/
def qclog (b r : ℚ) : ℤ :=
  if 1 ≤ r then (stepsUntilGe b r 1 (geFuel b r) : ℤ)
  else 1 - (stepsUntilGt b r⁻¹ 1 (geFuel b r⁻¹) : ℤ)

/-- Greatest integer `i` with `b ^ i <= r` (for `b > 1`, `r > 0`): the
exponential-domain form of the optimistic rounding `floor(log_b r)`. -/
def qflog (b r : ℚ) : ℤ :=
  if 1 ≤ r then (stepsUntilGt b r 1 (geFuel b r) : ℤ) - 1
  else - (stepsUntilGe b r⁻¹ 1 (geFuel b r⁻¹) : ℤ)

/-- The defining upper-bound property of the pessimistic rounding: the
chosen grid point dominates the true ratio. -/
theorem le_zpow_qclog (b r : ℚ) (hb : 1 < b) (hr : 0 < r) :
    r ≤ b ^ qclog b r := by
  have hb0 : (0:ℚ) < b := by linarith
  by_cases h1 : 1 ≤ r
  · rw [qclog, if_pos h1, zpow_natCast]
    have := stepsUntilGe_le b r (geFuel b r) 1
      ⟨geFuel b r, le_refl _, geFuel_spec b r hb h1⟩
    simpa using this
  · rw [qclog, if_neg h1]
    have hrlt : r < 1 := not_le.mp h1
    have hs1 : 1 < r⁻¹ := by
      have h3 := mul_lt_mul_of_pos_right hrlt (inv_pos.mpr hr)
      rwa [mul_inv_cancel₀ (ne_of_gt hr), one_mul] at h3
    have hfuel : 0 < geFuel b r⁻¹ := Nat.succ_pos _
    have hk := stepsUntilGt_pos b r⁻¹ 1 (geFuel b r⁻¹) hfuel (by linarith)
    have hlow := stepsUntilGt_lower b r⁻¹ (geFuel b r⁻¹) 1 hk
    rcases Nat.exists_eq_succ_of_ne_zero (Nat.pos_iff_ne_zero.mp hk) with ⟨m, hm⟩
    rw [hm] at hlow ⊢
    simp only [Nat.succ_sub_one, one_mul] at hlow
    have hcast : (1 : ℤ) - ((m + 1 : ℕ) : ℤ) = -(m : ℤ) := by push_cast; ring
    rw [hcast, zpow_neg, zpow_natCast]
    have hbm : (0:ℚ) < b ^ m := pow_pos hb0 m
    rw [← inv_inv r]
    exact inv_anti₀ hbm hlow

/-! ### The PLD data type and divergence query -/

/-- Modelled from the spec: the state of `PrivacyLossDistribution`
(private fields `discretization_interval_`, `infinity_mass_`,
`probability_mass_function_`, `estimate_type_`).  The discretization
interval `h` is represented by its exponential `discretization_base = e^h`
(see the file comment). -/
structure PrivacyLossDistribution where
  discretization_base : ℚ
  infinity_mass : ℚ
  probability_mass_function : PMFEntries
  estimate_type : EstimateType
deriving DecidableEq, Repr

abbrev PLD : Type := PrivacyLossDistribution

/-- Well-formedness maintained by every constructor: positive grid base
(`h > 0`), non-negative infinity mass and non-negative cell masses. -/
def WF (P : PLD) : Prop :=
  0 < P.discretization_base ∧ 0 ≤ P.infinity_mass ∧
    ∀ e ∈ P.probability_mass_function, 0 ≤ e.2

instance (P : PLD) : Decidable (WF P) := by
  unfold WF; infer_instance

/-- The finite part of the hockey-stick sum of a stored PMF:
`sum_i max(0, m_i - t * m_i * b^(-i))`, the exponential-domain form of
`sum_i max(0, m_i - e^eps * m_i * e^(-i*h))` (spec 4.4.1, with the lower
mass reconstructed as `m_i * e^(-i*h)`). -/
def deltaSum (b t : ℚ) (l : PMFEntries) : ℚ :=
  (l.map fun e => max 0 (e.2 - t * e.2 * b ^ (-e.1))).sum

@[simp] theorem deltaSum_nil (b t : ℚ) : deltaSum b t [] = 0 := rfl

theorem deltaSum_cons (b t : ℚ) (e : ℤ × ℚ) (l : PMFEntries) :
    deltaSum b t (e :: l) =
      max 0 (e.2 - t * e.2 * b ^ (-e.1)) + deltaSum b t l := by
  simp [deltaSum]

theorem deltaSum_append (b t : ℚ) (l1 l2 : PMFEntries) :
    deltaSum b t (l1 ++ l2) = deltaSum b t l1 + deltaSum b t l2 := by
  simp [deltaSum]

theorem deltaSum_reverse (b t : ℚ) (l : PMFEntries) :
    deltaSum b t l.reverse = deltaSum b t l := by
  simp [deltaSum, List.map_reverse, List.sum_reverse]

theorem deltaSum_nonneg (b t : ℚ) (l : PMFEntries) : 0 ≤ deltaSum b t l :=
  sum_map_nonneg l _ fun _ _ => le_max_left 0 _

/-- `GetDeltaForEpsilon`, modelled from the spec (4.4.1):
`delta = infinity_mass + sum_i max(0, m_i - e^eps * m'_i)` with
`m'_i = m_i * e^(-i*h)`; the argument `t` models `e^eps`. -/
def GetDeltaForEpsilon (P : PLD) (t : ℚ) : ℚ :=
  P.infinity_mass + deltaSum P.discretization_base t P.probability_mass_function

/-- Query `DiscretizationInterval` (returns the stored grid constant, here
in its exponential form). -/
def DiscretizationInterval (P : PLD) : ℚ := P.discretization_base

/-- Query `GetEstimateType`. -/
def GetEstimateType (P : PLD) : EstimateType := P.estimate_type

/-- Query `InfinityMass`. -/
def InfinityMass (P : PLD) : ℚ := P.infinity_mass

/-- Query `Pmf`. -/
def Pmf (P : PLD) : PMFEntries := P.probability_mass_function

/-! ### Constructor from raw PMFs -/

/-- Modelled from the spec (4.5, "From raw PMFs"): one pass over the upper
PMF.  An outcome whose upper mass is below the truncation threshold goes to
`infinity_mass` (pessimistic) or is discarded (optimistic); an outcome
absent from the lower PMF goes to `infinity_mass`; every other outcome is
stored at the rounded grid index for the ratio `mu_up(o)/mu_low(o)`
(`qclog` = ceiling rounding for pessimistic, `qflog` = floor rounding for
optimistic).  Returns (infinity mass, stored entries). -/
def CreateAux (pmf_lower : PMFEntries) (estimate_type : EstimateType)
    (b mtb : ℚ) : PMFEntries → ℚ × PMFEntries
  | [] => (0, [])
  | e :: rest =>
    let acc := CreateAux pmf_lower estimate_type b mtb rest
    if e.2 < mtb then
      (if estimate_type = EstimateType.kPessimistic then
        (acc.1 + e.2, acc.2) else acc)
    else if mass pmf_lower e.1 = 0 then (acc.1 + e.2, acc.2)
    else (acc.1,
      ((match estimate_type with
        | EstimateType.kPessimistic => qclog b (e.2 / mass pmf_lower e.1)
        | EstimateType.kOptimistic => qflog b (e.2 / mass pmf_lower e.1)),
        e.2) :: acc.2)

/-- Modelled from the spec: `Create` from two probability mass functions
(C++ returns `std::unique_ptr`, i.e. it cannot fail).  The parameter `mtb`
is the mass-scale form `e^mass_truncation_bound` of the C++
`mass_truncation_bound` (which lives on the log-mass scale). -/
def Create (pmf_lower pmf_upper : PMFEntries)
    (estimate_type : EstimateType := EstimateType.kPessimistic)
    (discretization_base : ℚ := 2) (mtb : ℚ := 0) : PLD :=
  { discretization_base := discretization_base
  , infinity_mass := (CreateAux pmf_lower estimate_type discretization_base mtb pmf_upper).1
  , probability_mass_function :=
      (CreateAux pmf_lower estimate_type discretization_base mtb pmf_upper).2
  , estimate_type := estimate_type }

/-- The exact epsilon-hockey-stick divergence
`sum_o max(0, mu_up(o) - e^eps * mu_low(o))` of a pair of raw PMFs, in the
exponential parameterisation (`t = e^eps`).  The sum ranges over the
distinct outcomes of the upper PMF; outcomes carrying only lower mass
contribute `max(0, -t * mu_low(o)) = 0`, so for `t >= 0` this is the full
divergence of the pair. -/
def hockeyStickDivergence (pmf_upper pmf_lower : PMFEntries) (t : ℚ) : ℚ :=
  ((pmf_upper.map Prod.fst).dedup.map fun o =>
    max 0 (mass pmf_upper o - t * mass pmf_lower o)).sum

/-- Per-outcome contribution of the pessimistic `Create` to
`GetDeltaForEpsilon`. -/
def createContrib (pmf_lower : PMFEntries) (b mtb t : ℚ) (e : ℤ × ℚ) : ℚ :=
  if e.2 < mtb then e.2
  else if mass pmf_lower e.1 = 0 then e.2
  else max 0 (e.2 - t * e.2 * b ^ (-(qclog b (e.2 / mass pmf_lower e.1))))


theorem createAux_delta (pmf_lower : PMFEntries) (b mtb t : ℚ) :
    ∀ up : PMFEntries,
      (CreateAux pmf_lower EstimateType.kPessimistic b mtb up).1 +
        deltaSum b t (CreateAux pmf_lower EstimateType.kPessimistic b mtb up).2 =
      (up.map (createContrib pmf_lower b mtb t)).sum := by
  intro up
  induction up with
  | nil => simp [CreateAux]
  | cons e rest ih =>
    by_cases h1 : e.2 < mtb
    · simp only [CreateAux, createContrib, h1, if_true, List.map_cons, List.sum_cons]
      rw [← ih]
      ring
    · by_cases h2 : mass pmf_lower e.1 = 0
      · simp only [CreateAux, createContrib, h1, h2, if_false, if_true,
          List.map_cons, List.sum_cons]
        rw [← ih]
        ring
      · simp only [CreateAux, createContrib, h1, h2, if_false,
          List.map_cons, List.sum_cons]
        rw [deltaSum_cons, ← ih]
        ring

theorem delta_create_eq (pmf_lower up : PMFEntries) (b mtb t : ℚ) :
    GetDeltaForEpsilon (Create pmf_lower up EstimateType.kPessimistic b mtb) t =
      (up.map (createContrib pmf_lower b mtb t)).sum := by
  unfold GetDeltaForEpsilon Create
  exact createAux_delta pmf_lower b mtb t up

theorem createContrib_ge (pmf_lower : PMFEntries) (b mtb t : ℚ)
    (hb : 1 < b) (ht : 0 ≤ t) (hlm : ∀ e ∈ pmf_lower, 0 ≤ e.2)
    (e : ℤ × ℚ) (he2 : 0 ≤ e.2) :
    max 0 (e.2 - t * mass pmf_lower e.1) ≤ createContrib pmf_lower b mtb t e := by
  have hb0 : (0:ℚ) < b := by linarith
  have hl0 : 0 ≤ mass pmf_lower e.1 := mass_nonneg pmf_lower e.1 hlm
  have htl : 0 ≤ t * mass pmf_lower e.1 := mul_nonneg ht hl0
  unfold createContrib
  by_cases h1 : e.2 < mtb
  · rw [if_pos h1]
    apply max_le he2
    linarith
  · rw [if_neg h1]
    by_cases h2 : mass pmf_lower e.1 = 0
    · rw [if_pos h2, h2]
      simp only [mul_zero, sub_zero]
      exact max_le he2 (le_refl _)
    · rw [if_neg h2]
      have hl : 0 < mass pmf_lower e.1 := lt_of_le_of_ne hl0 (Ne.symm h2)
      rcases eq_or_lt_of_le he2 with he0 | he0
      · rw [← he0]
        have hmz : max 0 (0 - t * mass pmf_lower e.1) = 0 := by
          apply max_eq_left
          linarith
        rw [hmz]
        exact le_max_left 0 _
      · set l := mass pmf_lower e.1 with hldef
        have hr : 0 < e.2 / l := div_pos he0 hl
        have hq := le_zpow_qclog b (e.2 / l) hb hr
        set I := qclog b (e.2 / l) with hIdef
        have hzI : (0:ℚ) < b ^ I := zpow_pos hb0 I
        have hle : e.2 ≤ b ^ I * l := (div_le_iff₀ hl).mp hq
        have hinv : e.2 * b ^ (-I) ≤ l := by
          rw [zpow_neg, ← div_eq_mul_inv, div_le_iff₀ hzI, mul_comm]
          exact hle
        have h5 := mul_le_mul_of_nonneg_left hinv ht
        apply max_le_max (le_refl 0)
        ring_nf
        ring_nf at h5
        linarith

/-- C1: for every PLD constructed with `kPessimistic` estimate from a pair
of raw distributions, and every `epsilon >= 0` (here `t = e^eps >= 1`),
`GetDeltaForEpsilon` dominates the exact hockey-stick divergence
`sum_o max(0, mu_up(o) - e^eps * mu_low(o))` of the original pair.
Stated for any grid base `b > 1` (i.e. any `h > 0`), any truncation
threshold, and distributions given by non-negative masses with distinct
upper outcomes. -/
theorem create_pessimistic_delta_dominates_divergence
    (pmf_lower pmf_upper : PMFEntries) (b mtb t : ℚ)
    (hb : 1 < b) (ht : 1 ≤ t)
    (hlm : ∀ e ∈ pmf_lower, 0 ≤ e.2) (hum : ∀ e ∈ pmf_upper, 0 ≤ e.2)
    (hnd : (pmf_upper.map Prod.fst).Nodup) :
    hockeyStickDivergence pmf_upper pmf_lower t ≤
      GetDeltaForEpsilon
        (Create pmf_lower pmf_upper EstimateType.kPessimistic b mtb) t := by
  rw [delta_create_eq]
  unfold hockeyStickDivergence
  rw [List.Nodup.dedup hnd, List.map_map]
  apply sum_map_le
  intro e he
  simp only [Function.comp_apply]
  rw [mass_of_nodup pmf_upper hnd e he]
  exact createContrib_ge pmf_lower b mtb t hb (by linarith) hlm e (hum e he)

theorem create_pessimistic_delta_dominates_divergence_witness :
    hockeyStickDivergence [((0:ℤ), (1:ℚ))] [((0:ℤ), (1:ℚ))] 1 ≤
      GetDeltaForEpsilon
        (Create [((0:ℤ), (1:ℚ))] [((0:ℤ), (1:ℚ))]
          EstimateType.kPessimistic 2 0) 1 :=
  create_pessimistic_delta_dominates_divergence
    [((0:ℤ), (1:ℚ))] [((0:ℤ), (1:ℚ))] 2 0 1
    (by norm_num) (le_refl 1)
    (by simp) (by simp) (by simp)

/-! ### Remaining constructors -/

/-- Modelled from the spec (4.5): `CreateIdentity` — a single cell at index
0 with mass 1 and no infinity mass (C++ returns `std::unique_ptr`, i.e. it
cannot fail). -/
def CreateIdentity (discretization_base : ℚ := 2) : PLD :=
  ⟨discretization_base, 0, [(0, 1)], EstimateType.kPessimistic⟩

/-- The C++ `EpsilonDelta` pair, with epsilon in exponential form
(`t` models `e^epsilon`). -/
structure EpsilonDelta where
  t : ℚ
  delta : ℚ

/-- Modelled from the spec (4.5): `CreateForPrivacyParameters` — infinity
mass `delta`, and two cells at the ceiled grid indices of `+-epsilon` with
masses `(1-delta)/(1+e^(-eps))` and `(1-delta)/(1+e^eps)` (here
`e^eps = ed.t`).  Infallible in C++ (`std::unique_ptr`). -/
def CreateForPrivacyParameters (ed : EpsilonDelta)
    (discretization_base : ℚ := 2) : PLD :=
  ⟨discretization_base, ed.delta,
    [(qclog discretization_base ed.t, (1 - ed.delta) / (1 + ed.t⁻¹)),
     (qclog discretization_base ed.t⁻¹, (1 - ed.delta) / (1 + ed.t))],
    EstimateType.kPessimistic⟩

/-- Consecutive integer grid indices `base, base+1, ..., base+n-1`. -/
def windowKeys (base : ℤ) : ℕ → List ℤ
  | 0 => []
  | n+1 => base :: windowKeys (base + 1) n

/-- Modelled from the spec (4.2): the `AdditiveNoisePrivacyLoss`
collaborator is declared in `privacy_loss_mechanism.h`, outside this
header.  It is abstracted here by exactly the data `CreateForAdditiveNoise`
consumes in spec 4.5: the per-cell upper masses
`mu_upper_cdf(inverse_privacy_loss(i*h - h)) -
mu_upper_cdf(inverse_privacy_loss(i*h))`, the iteration bounds derived
from `mass_truncation_bound`, and the total mass of the truncated tails. -/
structure AdditiveNoisePrivacyLoss where
  cell_mass : ℤ → ℚ
  lower_index : ℤ
  upper_index : ℤ
  truncated_tail_mass : ℚ

/-- Modelled from the spec (4.5, "From a mechanism"): one cell per grid
index between the iteration bounds; truncated tails are added to
`infinity_mass` under pessimistic rounding and discarded under optimistic
rounding.  Infallible in C++ (`std::unique_ptr`). -/
def CreateForAdditiveNoise (m : AdditiveNoisePrivacyLoss)
    (estimate_type : EstimateType := EstimateType.kPessimistic)
    (discretization_base : ℚ := 2) : PLD :=
  ⟨discretization_base,
   if estimate_type = EstimateType.kPessimistic then m.truncated_tail_mass else 0,
   (windowKeys m.lower_index (m.upper_index + 1 - m.lower_index).toNat).map
     (fun i => (i, m.cell_mass i)),
   estimate_type⟩

/-- Modelled from the spec (4.2, 6): `CreateForRandomizedResponse` —
parameter validation (`noise_parameter` in [0,1], `num_buckets >= 2`,
otherwise `InvalidParameter`), then the closed-form PMF through `Create`.
Outcome 0 is "output = input bucket", outcome 1 the swapped neighbour
bucket, outcome 2 aggregates the `k-2` remaining buckets (all of privacy
loss 0, hence one outcome of equal total mass and identical ratio). -/
def CreateForRandomizedResponse (noise_parameter : ℚ) (num_buckets : ℤ)
    (estimate_type : EstimateType := EstimateType.kPessimistic)
    (discretization_base : ℚ := 2) : Except PLDError PLD :=
  if noise_parameter < 0 ∨ 1 < noise_parameter ∨ num_buckets < 2 then
    Except.error PLDError.invalidParameter
  else
    Except.ok (Create
      [(0, noise_parameter / (num_buckets : ℚ)),
       (1, 1 - noise_parameter + noise_parameter / (num_buckets : ℚ)),
       (2, ((num_buckets : ℚ) - 2) * (noise_parameter / (num_buckets : ℚ)))]
      [(0, 1 - noise_parameter + noise_parameter / (num_buckets : ℚ)),
       (1, noise_parameter / (num_buckets : ℚ)),
       (2, ((num_buckets : ℚ) - 2) * (noise_parameter / (num_buckets : ℚ)))]
      estimate_type discretization_base 0)

/-- C4: `GetDeltaForEpsilon` is monotone non-increasing in epsilon: for
`t1 <= t2` (i.e. `eps1 <= eps2` through the monotone map `t = e^eps`),
`delta(eps2) <= delta(eps1)`, for every well-formed PLD. -/
theorem getDeltaForEpsilon_antitone (P : PLD) (hP : WF P) (t1 t2 : ℚ)
    (h12 : t1 ≤ t2) : GetDeltaForEpsilon P t2 ≤ GetDeltaForEpsilon P t1 := by
  unfold GetDeltaForEpsilon deltaSum
  apply add_le_add_left
  apply sum_map_le
  intro e he
  have hm := hP.2.2 e he
  have hz : (0:ℚ) < P.discretization_base ^ (-e.1) := zpow_pos hP.1 _
  apply max_le_max (le_refl 0)
  have hmono : t1 * e.2 * P.discretization_base ^ (-e.1) ≤
      t2 * e.2 * P.discretization_base ^ (-e.1) :=
    mul_le_mul_of_nonneg_right (mul_le_mul_of_nonneg_right h12 hm) (le_of_lt hz)
  linarith

theorem getDeltaForEpsilon_antitone_witness :
    GetDeltaForEpsilon ⟨2, 0, [((0:ℤ), (1:ℚ))], EstimateType.kPessimistic⟩ 2 ≤
      GetDeltaForEpsilon ⟨2, 0, [((0:ℤ), (1:ℚ))], EstimateType.kPessimistic⟩ 1 :=
  getDeltaForEpsilon_antitone ⟨2, 0, [((0:ℤ), (1:ℚ))], EstimateType.kPessimistic⟩
    ⟨by norm_num, by norm_num, by simp⟩ 1 2 (by norm_num)

/-- C10: the constructors `Create`, `CreateIdentity`,
`CreateForAdditiveNoise` and `CreateForPrivacyParameters` return a bare
PLD for every input (the C++ signatures return `std::unique_ptr`, with no
status channel), in contrast to the per-mechanism constructors
(`absl::StatusOr`), which can surface a failure, e.g.
`CreateForRandomizedResponse` with `noise_parameter = 2`. -/
theorem infallible_constructors_always_return :
    (∀ (pl pu : PMFEntries) (et : EstimateType) (b mtb : ℚ),
        ∃ P : PLD, Create pl pu et b mtb = P) ∧
    (∀ b : ℚ, ∃ P : PLD, CreateIdentity b = P) ∧
    (∀ (m : AdditiveNoisePrivacyLoss) (et : EstimateType) (b : ℚ),
        ∃ P : PLD, CreateForAdditiveNoise m et b = P) ∧
    (∀ (ed : EpsilonDelta) (b : ℚ),
        ∃ P : PLD, CreateForPrivacyParameters ed b = P) ∧
    CreateForRandomizedResponse 2 3 EstimateType.kPessimistic 2 =
      Except.error PLDError.invalidParameter := by
  refine ⟨fun pl pu et b mtb => ⟨_, rfl⟩, fun b => ⟨_, rfl⟩,
    fun m et b => ⟨_, rfl⟩, fun ed b => ⟨_, rfl⟩, ?_⟩
  unfold CreateForRandomizedResponse
  rw [if_pos]
  exact Or.inr (Or.inl one_lt_two)

/-! ### Composition: convolution -/

/-- All products of one cell of `A` and one cell of `B`, at the summed
index: the raw material of the discrete convolution `A.pmf * B.pmf`. -/
def pairList (A B : PMFEntries) : PMFEntries :=
  A.flatMap fun a => B.map fun b2 => (a.1 + b2.1, a.2 * b2.2)

/-- The distinct indices occurring in the convolution. -/
def convKeys (A B : PMFEntries) : List ℤ := ((pairList A B).map Prod.fst).dedup

/-- Those indices in ascending order. -/
def sortedConvKeys (A B : PMFEntries) : List ℤ :=
  List.insertionSort (· ≤ ·) (convKeys A B)

/-- The discrete convolution of two stored PMFs, as an ascending list of
(index, accumulated mass) cells — the hash-map accumulation of the C++
composition, ordered for tail truncation. -/
def convolution (A B : PMFEntries) : PMFEntries :=
  (sortedConvKeys A B).map fun k => (k, mass (pairList A B) k)

/-- Reference form of the discrete convolution, as named by the spec:
`(A.pmf * B.pmf)(k) = sum_i A.pmf(i) * B.pmf(k - i)`. -/
def convolutionMass (A B : PMFEntries) (k : ℤ) : ℚ :=
  (A.map fun a => a.2 * mass B (k - a.1)).sum

theorem exists_key_of_mass_ne_zero (l : PMFEntries) (k : ℤ)
    (h : mass l k ≠ 0) : ∃ e ∈ l, e.1 = k := by
  by_contra hc
  push_neg at hc
  exact h (mass_eq_zero_of_keys l k hc)

theorem sortedConvKeys_nodup (A B : PMFEntries) : (sortedConvKeys A B).Nodup :=
  (List.Perm.nodup_iff (List.perm_insertionSort _ _)).mpr (List.nodup_dedup _)

theorem mem_sortedConvKeys (A B : PMFEntries) (x : ℤ) :
    x ∈ sortedConvKeys A B ↔ x ∈ convKeys A B :=
  (List.perm_insertionSort _ _).mem_iff

theorem pairKey_mem_sorted (A B : PMFEntries) (e : ℤ × ℚ)
    (he : e ∈ pairList A B) : e.1 ∈ sortedConvKeys A B := by
  rw [mem_sortedConvKeys]
  exact List.mem_dedup.mpr (List.mem_map_of_mem Prod.fst he)

theorem pairwise_lt_of_sorted_nodup :
    ∀ K : List ℤ, K.Pairwise (· ≤ ·) → K.Nodup → K.Pairwise (· < ·) := by
  intro K hs hn
  induction K with
  | nil => exact List.Pairwise.nil
  | cons a K ih =>
    rw [List.pairwise_cons] at hs ⊢
    rw [List.nodup_cons] at hn
    refine ⟨fun b hb => lt_of_le_of_ne (hs.1 b hb) ?_, ih hs.2 hn.2⟩
    intro heq
    exact hn.1 (heq ▸ hb)

theorem sortedConvKeys_pairwise_lt (A B : PMFEntries) :
    (sortedConvKeys A B).Pairwise (· < ·) := by
  apply pairwise_lt_of_sorted_nodup
  · exact List.sorted_insertionSort _ _
  · exact sortedConvKeys_nodup A B

theorem convolution_keys (A B : PMFEntries) :
    (convolution A B).map Prod.fst = sortedConvKeys A B := by
  unfold convolution
  rw [List.map_map]
  exact List.map_id _

theorem convolution_pairwise (A B : PMFEntries) :
    (convolution A B).Pairwise fun e1 e2 => e1.1 < e2.1 := by
  unfold convolution
  rw [List.pairwise_map]
  exact sortedConvKeys_pairwise_lt A B

theorem mass_convolution (A B : PMFEntries) (k : ℤ) :
    mass (convolution A B) k = mass (pairList A B) k := by
  by_cases hk : k ∈ sortedConvKeys A B
  · have hmem : ((k, mass (pairList A B) k) : ℤ × ℚ) ∈ convolution A B :=
      List.mem_map_of_mem _ hk
    have hnd : ((convolution A B).map Prod.fst).Nodup := by
      rw [convolution_keys]; exact sortedConvKeys_nodup A B
    exact mass_of_nodup _ hnd _ hmem
  · have h1 : mass (convolution A B) k = 0 := by
      apply mass_eq_zero_of_keys
      intro e he hek
      exact hk (hek ▸ (convolution_keys A B ▸ List.mem_map_of_mem Prod.fst he))
    have h2 : mass (pairList A B) k = 0 := by
      by_contra hc
      rcases exists_key_of_mass_ne_zero _ _ hc with ⟨e, he, hek⟩
      exact hk (hek ▸ pairKey_mem_sorted A B e he)
    rw [h1, h2]

theorem mass_map_shift (a : ℤ × ℚ) (B : PMFEntries) (k : ℤ) :
    mass (B.map fun b2 => (a.1 + b2.1, a.2 * b2.2)) k =
      a.2 * mass B (k - a.1) := by
  induction B with
  | nil => simp
  | cons b2 B ih =>
    rw [List.map_cons, mass_cons, mass_cons, ih]
    dsimp only
    by_cases hc : b2.1 = k - a.1
    · have hc2 : a.1 + b2.1 = k := by omega
      rw [if_pos hc, if_pos hc2]; ring
    · have hc2 : ¬(a.1 + b2.1 = k) := by omega
      rw [if_neg hc, if_neg hc2]; ring

theorem mass_pairList (A B : PMFEntries) (k : ℤ) :
    mass (pairList A B) k = convolutionMass A B k := by
  induction A with
  | nil => simp [pairList, convolutionMass]
  | cons a A ih =>
    unfold pairList convolutionMass at ih ⊢
    rw [List.flatMap_cons, mass_append, List.map_cons, List.sum_cons, ih,
      mass_map_shift]

theorem totalMass_convolution (A B : PMFEntries) :
    totalMass (convolution A B) = totalMass (pairList A B) := by
  have h1 : totalMass (convolution A B) =
      ((sortedConvKeys A B).map fun k => mass (pairList A B) k).sum := by
    unfold totalMass convolution
    rw [List.map_map]
    rfl
  rw [h1]
  exact sum_mass_total _ _ (sortedConvKeys_nodup A B) (pairKey_mem_sorted A B)

theorem pairList_nonneg (A B : PMFEntries)
    (hA : ∀ a ∈ A, 0 ≤ a.2) (hB : ∀ b2 ∈ B, 0 ≤ b2.2) :
    ∀ e ∈ pairList A B, 0 ≤ e.2 := by
  intro e he
  rcases List.mem_flatMap.mp he with ⟨a, ha, hmem⟩
  rcases List.mem_map.mp hmem with ⟨b2, hb2, hba⟩
  rw [← hba]
  exact mul_nonneg (hA a ha) (hB b2 hb2)

theorem convolution_nonneg (A B : PMFEntries)
    (hA : ∀ a ∈ A, 0 ≤ a.2) (hB : ∀ b2 ∈ B, 0 ≤ b2.2) :
    ∀ e ∈ convolution A B, 0 ≤ e.2 := by
  intro e he
  rcases List.mem_map.mp he with ⟨k, _, hke⟩
  rw [← hke]
  exact mass_nonneg _ _ (pairList_nonneg A B hA hB)

/-- For a non-negative cell mass the hockey-stick term factors. -/
theorem max_term_factor (m t x : ℚ) (hm : 0 ≤ m) :
    max 0 (m - t * m * x) = m * max 0 (1 - t * x) := by
  rw [mul_max_of_nonneg _ _ hm, mul_zero]
  congr 1
  ring

/-- The finite hockey-stick sum of the convolution equals the entrywise
sum over all cell pairs. -/
theorem deltaSum_convolution (A B : PMFEntries) (b t : ℚ)
    (hA : ∀ a ∈ A, 0 ≤ a.2) (hB : ∀ b2 ∈ B, 0 ≤ b2.2) :
    deltaSum b t (convolution A B) = deltaSum b t (pairList A B) := by
  unfold deltaSum
  have h1 : ((convolution A B).map fun e =>
      max 0 (e.2 - t * e.2 * b ^ (-e.1))).sum =
      ((sortedConvKeys A B).map fun k =>
        mass (pairList A B) k * max 0 (1 - t * b ^ (-k))).sum := by
    unfold convolution
    rw [List.map_map]
    apply congrArg
    apply List.map_congr_left
    intro k _
    exact max_term_factor _ t _ (mass_nonneg _ _ (pairList_nonneg A B hA hB))
  rw [h1, sum_mass_mul _ _ (sortedConvKeys_nodup A B) (pairKey_mem_sorted A B)]
  apply congrArg
  apply List.map_congr_left
  intro e he
  rw [max_term_factor _ t _ (pairList_nonneg A B hA hB e he)]

/-! ### Composition: tail truncation and the operation itself -/

/-- Modelled from the spec (4.4.2 tail truncation): walking from the
highest index downward (the input list is the convolution in descending
order), greedily remove upper-tail cells while their cumulative mass stays
within the budget; stop at the first cell that does not fit.  Returns
(kept cells, removed mass). -/
def truncFromTop : PMFEntries → ℚ → PMFEntries × ℚ
  | [], _ => ([], 0)
  | e :: rest, budget =>
    if e.2 ≤ budget then
      ((truncFromTop rest (budget - e.2)).1,
       (truncFromTop rest (budget - e.2)).2 + e.2)
    else (e :: rest, 0)

theorem truncFromTop_split :
    ∀ (l : PMFEntries) (budget : ℚ), ∃ d : PMFEntries,
      l = d ++ (truncFromTop l budget).1 ∧
      (truncFromTop l budget).2 = totalMass d := by
  intro l
  induction l with
  | nil => intro budget; exact ⟨[], rfl, rfl⟩
  | cons e rest ih =>
    intro budget
    by_cases h : e.2 ≤ budget
    · obtain ⟨d, hd1, hd2⟩ := ih (budget - e.2)
      refine ⟨e :: d, ?_, ?_⟩
      · simp only [truncFromTop, if_pos h, List.cons_append]
        rw [← hd1]
      · simp only [truncFromTop, if_pos h, totalMass, List.map_cons,
          List.sum_cons]
        rw [hd2]
        unfold totalMass
        ring
    · exact ⟨[], by simp [truncFromTop, if_neg h], by simp [truncFromTop, if_neg h, totalMass]⟩

theorem truncFromTop_budget :
    ∀ (l : PMFEntries) (budget : ℚ), 0 ≤ budget → (∀ e ∈ l, 0 ≤ e.2) →
      0 ≤ (truncFromTop l budget).2 ∧ (truncFromTop l budget).2 ≤ budget := by
  intro l
  induction l with
  | nil => intro budget hb _; exact ⟨le_refl 0, hb⟩
  | cons e rest ih =>
    intro budget hb hm
    by_cases h : e.2 ≤ budget
    · have he2 := hm e (List.mem_cons_self e rest)
      have hrest := ih (budget - e.2) (by linarith)
        (fun x hx => hm x (List.mem_cons_of_mem e hx))
      simp only [truncFromTop, if_pos h]
      constructor
      · linarith [hrest.1]
      · linarith [hrest.2]
    · simp only [truncFromTop, if_neg h]
      exact ⟨le_refl 0, hb⟩

/-- Modelled from the spec (4.4.2): `ValidateComposition` — equal
discretization interval and equal estimate type, otherwise
`IncompatiblePLDs`. -/
def ValidateComposition (A B : PLD) : Except PLDError Unit :=
  if A.discretization_base = B.discretization_base ∧
      A.estimate_type = B.estimate_type then Except.ok ()
  else Except.error PLDError.incompatiblePLDs

/-- `1 - (1 - A.infinity_mass) * (1 - B.infinity_mass)`, the infinity mass
of a composition before truncation (spec 4.4.2). -/
def composedInfinityMass (A B : PLD) : ℚ :=
  1 - (1 - A.infinity_mass) * (1 - B.infinity_mass)

/-- Modelled from the spec (4.4.2): pairwise `Compose` (the C++
`absl::Status Compose(other_pld, tail_mass_truncation)`, modelled
functionally: the `ok` value is the post-state of the mutated receiver,
and an error leaves the receiver untouched).  Inlines the
`ValidateComposition` check; optimistic PLDs reject a positive truncation
budget; under pessimistic rounding the truncated upper-tail mass moves
into `infinity_mass`. -/
def Compose (A B : PLD) (tail_mass_truncation : ℚ) : Except PLDError PLD :=
  if A.discretization_base = B.discretization_base ∧
      A.estimate_type = B.estimate_type then
    if A.estimate_type = EstimateType.kOptimistic ∧ 0 < tail_mass_truncation then
      Except.error PLDError.unsupportedEstimateType
    else if A.estimate_type = EstimateType.kPessimistic then
      Except.ok ⟨A.discretization_base,
        composedInfinityMass A B +
          (truncFromTop (convolution A.probability_mass_function
            B.probability_mass_function).reverse tail_mass_truncation).2,
        (truncFromTop (convolution A.probability_mass_function
          B.probability_mass_function).reverse tail_mass_truncation).1.reverse,
        A.estimate_type⟩
    else
      Except.ok ⟨A.discretization_base, composedInfinityMass A B,
        convolution A.probability_mass_function B.probability_mass_function,
        A.estimate_type⟩
  else Except.error PLDError.incompatiblePLDs

/-- C6: composing two PLDs that differ in discretization interval or in
estimate type fails with `IncompatiblePLDs`, through both
`ValidateComposition` and `Compose` (for every truncation budget).  In
this functional model a failing `Compose` returns no post-state at all,
so the receiver keeps its PMF, infinity mass, interval and estimate type
unchanged. -/
theorem incompatible_composition_fails (A B : PLD)
    (h : A.discretization_base ≠ B.discretization_base ∨
      A.estimate_type ≠ B.estimate_type) :
    ValidateComposition A B = Except.error PLDError.incompatiblePLDs ∧
    ∀ τ : ℚ, Compose A B τ = Except.error PLDError.incompatiblePLDs := by
  have hcond : ¬(A.discretization_base = B.discretization_base ∧
      A.estimate_type = B.estimate_type) := by
    intro hc
    rcases h with h | h
    · exact h hc.1
    · exact h hc.2
  constructor
  · unfold ValidateComposition
    rw [if_neg hcond]
  · intro τ
    unfold Compose
    rw [if_neg hcond]

theorem incompatible_composition_fails_witness :
    ValidateComposition ⟨2, 0, [], EstimateType.kPessimistic⟩
        ⟨3, 0, [], EstimateType.kPessimistic⟩ =
      Except.error PLDError.incompatiblePLDs ∧
    ∀ τ : ℚ, Compose ⟨2, 0, [], EstimateType.kPessimistic⟩
        ⟨3, 0, [], EstimateType.kPessimistic⟩ τ =
      Except.error PLDError.incompatiblePLDs :=
  incompatible_composition_fails _ _ (Or.inl (by norm_num))

/-- C2 (amended): for PLDs with equal discretization interval and equal
estimate type, and a truncation budget `τ >= 0` that is admissible for the
estimate type (pessimistic, or `τ = 0`), `Compose` succeeds; the
post-state PMF agrees with the discrete convolution
`sum_i A.pmf(i) * B.pmf(k-i)` except on a truncated set of indices lying
strictly above every kept index, whose total mass `rm <= τ` moves into
`infinity_mass = 1 - (1-A.inf)(1-B.inf) + rm`. -/
theorem compose_is_truncated_convolution (A B : PLD) (τ : ℚ)
    (hbase : A.discretization_base = B.discretization_base)
    (het : A.estimate_type = B.estimate_type)
    (hWA : WF A) (hWB : WF B) (hτ : 0 ≤ τ)
    (hmode : A.estimate_type = EstimateType.kPessimistic ∨ τ = 0) :
    ∃ C : PLD, Compose A B τ = Except.ok C ∧
      C.discretization_base = A.discretization_base ∧
      C.estimate_type = A.estimate_type ∧
      ∃ rm : ℚ, 0 ≤ rm ∧ rm ≤ τ ∧
        C.infinity_mass = 1 - (1 - A.infinity_mass) * (1 - B.infinity_mass) + rm ∧
        totalMass C.probability_mass_function + rm =
          totalMass (pairList A.probability_mass_function
            B.probability_mass_function) ∧
        ∀ k : ℤ,
          mass C.probability_mass_function k =
            convolutionMass A.probability_mass_function
              B.probability_mass_function k ∨
          (mass C.probability_mass_function k = 0 ∧
            ∀ k2 : ℤ, mass C.probability_mass_function k2 ≠ 0 → k2 < k) := by
  have hcond : A.discretization_base = B.discretization_base ∧
      A.estimate_type = B.estimate_type := ⟨hbase, het⟩
  unfold Compose
  rw [if_pos hcond]
  by_cases hP : A.estimate_type = EstimateType.kPessimistic
  · have hno : ¬(A.estimate_type = EstimateType.kOptimistic ∧
        0 < τ) := by
      rw [hP]; simp
    rw [if_neg hno, if_pos hP]
    obtain ⟨d, hd1, hd2⟩ := truncFromTop_split
      (convolution A.probability_mass_function B.probability_mass_function).reverse τ
    have hcnn : ∀ e ∈ convolution A.probability_mass_function
        B.probability_mass_function, 0 ≤ e.2 :=
      convolution_nonneg _ _ hWA.2.2 hWB.2.2
    have hlnn : ∀ e ∈ (convolution A.probability_mass_function
        B.probability_mass_function).reverse, 0 ≤ e.2 :=
      fun e he => hcnn e (List.mem_reverse.mp he)
    obtain ⟨hrm0, hrm1⟩ := truncFromTop_budget
      (convolution A.probability_mass_function B.probability_mass_function).reverse
      τ hτ hlnn
    refine ⟨_, rfl, rfl, rfl, _, hrm0, hrm1, rfl, ?_, ?_⟩
    · dsimp only
      rw [totalMass_reverse, hd2]
      have h3 := congrArg totalMass hd1
      rw [totalMass_append] at h3
      have h4 : totalMass (convolution A.probability_mass_function
          B.probability_mass_function).reverse =
          totalMass (pairList A.probability_mass_function
            B.probability_mass_function) := by
        rw [totalMass_reverse, totalMass_convolution]
      linarith
    · intro k
      dsimp only
      have h5 : mass (convolution A.probability_mass_function
          B.probability_mass_function).reverse k =
          mass d k + mass (truncFromTop (convolution A.probability_mass_function
            B.probability_mass_function).reverse τ).1 k := by
        conv_lhs => rw [hd1]
        rw [mass_append]
      have h6 : mass (convolution A.probability_mass_function
          B.probability_mass_function).reverse k =
          convolutionMass A.probability_mass_function
            B.probability_mass_function k := by
        rw [mass_reverse, mass_convolution, mass_pairList]
      by_cases hdk : mass d k = 0
      · left
        rw [mass_reverse]
        linarith
      · right
        obtain ⟨ed, hed, hedk⟩ := exists_key_of_mass_ne_zero d k hdk
        have hpw : (convolution A.probability_mass_function
            B.probability_mass_function).reverse.Pairwise
            (fun e1 e2 => e2.1 < e1.1) := by
          rw [List.pairwise_reverse]
          exact convolution_pairwise _ _
        rw [hd1] at hpw
        have hcross := (List.pairwise_append.mp hpw).2.2
        constructor
        · rw [mass_reverse]
          apply mass_eq_zero_of_keys
          intro e2 he2 hk2
          have hlt := hcross ed hed e2 he2
          rw [hk2, hedk] at hlt
          exact lt_irrefl k hlt
        · intro k2 hk2
          rw [mass_reverse] at hk2
          obtain ⟨e2, he2, he2k⟩ := exists_key_of_mass_ne_zero _ _ hk2
          have hlt := hcross ed hed e2 he2
          rw [he2k, hedk] at hlt
          exact hlt
  · have hOpt : A.estimate_type = EstimateType.kOptimistic := by
      cases h' : A.estimate_type
      · exact absurd h' hP
      · rfl
    have hτ0 : τ = 0 := by
      rcases hmode with h | h
      · exact absurd h hP
      · exact h
    subst hτ0
    have hno : ¬(A.estimate_type = EstimateType.kOptimistic ∧ (0:ℚ) < 0) := by
      simp
    rw [if_neg hno, if_neg hP]
    refine ⟨_, rfl, rfl, rfl, 0, le_refl 0, le_refl 0, ?_, ?_, ?_⟩
    · dsimp only
      unfold composedInfinityMass
      ring
    · dsimp only
      rw [add_zero, totalMass_convolution]
    · intro k
      dsimp only
      left
      rw [mass_convolution, mass_pairList]

theorem compose_is_truncated_convolution_witness :
    ∃ C : PLD,
      Compose ⟨2, 0, [((0:ℤ), (1:ℚ))], EstimateType.kPessimistic⟩
        ⟨2, 0, [((0:ℤ), (1:ℚ))], EstimateType.kPessimistic⟩ 1 = Except.ok C ∧
      C.discretization_base = 2 ∧
      C.estimate_type = EstimateType.kPessimistic ∧
      ∃ rm : ℚ, 0 ≤ rm ∧ rm ≤ 1 ∧
        C.infinity_mass = 1 - (1 - 0) * (1 - 0) + rm ∧
        totalMass C.probability_mass_function + rm =
          totalMass (pairList [((0:ℤ), (1:ℚ))] [((0:ℤ), (1:ℚ))]) ∧
        ∀ k : ℤ,
          mass C.probability_mass_function k =
            convolutionMass [((0:ℤ), (1:ℚ))] [((0:ℤ), (1:ℚ))] k ∨
          (mass C.probability_mass_function k = 0 ∧
            ∀ k2 : ℤ, mass C.probability_mass_function k2 ≠ 0 → k2 < k) :=
  compose_is_truncated_convolution
    ⟨2, 0, [((0:ℤ), (1:ℚ))], EstimateType.kPessimistic⟩
    ⟨2, 0, [((0:ℤ), (1:ℚ))], EstimateType.kPessimistic⟩ 1
    rfl rfl ⟨by norm_num, le_refl 0, by simp⟩ ⟨by norm_num, le_refl 0, by simp⟩
    (by norm_num) (Or.inl rfl)

/-- C2 counterexample: as literally stated ("for every two PLDs with equal
discretization interval and estimate type, Compose succeeds"), the claim
fails: two equal optimistic PLDs with a positive truncation budget are
rejected with `UnsupportedEstimateType` (spec 4.4.2 forbids truncation
under optimistic rounding; the default budget `1e-15` is positive). -/
theorem compose_optimistic_positive_truncation_fails :
    Compose ⟨2, 0, [((0:ℤ), (1:ℚ))], EstimateType.kOptimistic⟩
        ⟨2, 0, [((0:ℤ), (1:ℚ))], EstimateType.kOptimistic⟩ 1 =
      Except.error PLDError.unsupportedEstimateType := by
  unfold Compose
  rw [if_pos ⟨rfl, rfl⟩, if_pos ⟨rfl, by norm_num⟩]

/-! ### Fast composed-delta query -/

/-- Modelled from the spec (4.4.2, fast delta-query): validates
composability, then evaluates
`delta = sum_(i,j) max(0, m_i m_j - e^eps * e^(-(i+j)h) * m_i m_j)
 + combined_infinity_mass` without materializing the composition
(C++ `absl::StatusOr<double> GetDeltaForEpsilonForComposedPLD`; `const`,
so neither operand changes). -/
def GetDeltaForEpsilonForComposedPLD (A B : PLD) (t : ℚ) :
    Except PLDError ℚ :=
  if A.discretization_base = B.discretization_base ∧
      A.estimate_type = B.estimate_type then
    Except.ok (composedInfinityMass A B +
      (A.probability_mass_function.map fun a =>
        (B.probability_mass_function.map fun b2 =>
          max 0 (a.2 * b2.2 - t * (a.2 * b2.2) *
            A.discretization_base ^ (-(a.1 + b2.1)))).sum).sum)
  else Except.error PLDError.incompatiblePLDs

theorem doubleSum_eq_deltaSum_pairList (A B : PMFEntries) (b t : ℚ) :
    (A.map fun a => (B.map fun b2 =>
        max 0 (a.2 * b2.2 - t * (a.2 * b2.2) * b ^ (-(a.1 + b2.1)))).sum).sum =
      deltaSum b t (pairList A B) := by
  induction A with
  | nil => simp [pairList, deltaSum]
  | cons a A ih =>
    unfold pairList at ih ⊢
    rw [List.flatMap_cons, deltaSum_append, List.map_cons, List.sum_cons, ih]
    congr 1
    unfold deltaSum
    rw [List.map_map]
    apply congrArg
    apply List.map_congr_left
    intro b2 _
    rfl

theorem deltaSum_le_totalMass (b t : ℚ) (l : PMFEntries)
    (hb : 0 < b) (ht : 0 ≤ t) (hl : ∀ e ∈ l, 0 ≤ e.2) :
    deltaSum b t l ≤ totalMass l := by
  apply sum_map_le
  intro e he
  have he2 := hl e he
  have hx : (0:ℚ) < b ^ (-e.1) := zpow_pos hb _
  apply max_le he2
  linarith [mul_nonneg (mul_nonneg ht he2) hx.le]

/-- C5: whenever `A` and `B` are composable (equal interval, equal
estimate type, admissible budget), the fast query
`GetDeltaForEpsilonForComposedPLD` succeeds without touching either
operand, and its value agrees with `Compose`-then-`GetDeltaForEpsilon` up
to the truncation budget: `d <= delta(C) <= d + τ` (exact agreement for
`τ = 0`; with the C++ defaults `τ = 1e-15 <= 1e-12`). -/
theorem fast_composed_delta_agrees (A B : PLD) (τ t : ℚ)
    (hbase : A.discretization_base = B.discretization_base)
    (het : A.estimate_type = B.estimate_type)
    (hWA : WF A) (hWB : WF B) (ht : 0 ≤ t) (hτ : 0 ≤ τ)
    (hmode : A.estimate_type = EstimateType.kPessimistic ∨ τ = 0) :
    ∃ (C : PLD) (d : ℚ), Compose A B τ = Except.ok C ∧
      GetDeltaForEpsilonForComposedPLD A B t = Except.ok d ∧
      d ≤ GetDeltaForEpsilon C t ∧ GetDeltaForEpsilon C t ≤ d + τ := by
  have hcond : A.discretization_base = B.discretization_base ∧
      A.estimate_type = B.estimate_type := ⟨hbase, het⟩
  have hfast : GetDeltaForEpsilonForComposedPLD A B t =
      Except.ok (composedInfinityMass A B +
        deltaSum A.discretization_base t
          (pairList A.probability_mass_function B.probability_mass_function)) := by
    unfold GetDeltaForEpsilonForComposedPLD
    rw [if_pos hcond, doubleSum_eq_deltaSum_pairList]
  unfold Compose
  rw [if_pos hcond]
  by_cases hP : A.estimate_type = EstimateType.kPessimistic
  · have hno : ¬(A.estimate_type = EstimateType.kOptimistic ∧ 0 < τ) := by
      rw [hP]; simp
    rw [if_neg hno, if_pos hP]
    refine ⟨_, _, rfl, hfast, ?_, ?_⟩
    all_goals
      obtain ⟨dd, hd1, hd2⟩ := truncFromTop_split
        (convolution A.probability_mass_function
          B.probability_mass_function).reverse τ
      have hcnn : ∀ e ∈ convolution A.probability_mass_function
          B.probability_mass_function, 0 ≤ e.2 :=
        convolution_nonneg _ _ hWA.2.2 hWB.2.2
      have hlnn : ∀ e ∈ (convolution A.probability_mass_function
          B.probability_mass_function).reverse, 0 ≤ e.2 :=
        fun e he => hcnn e (List.mem_reverse.mp he)
      have hddnn : ∀ e ∈ dd, 0 ≤ e.2 :=
        fun e he => hlnn e (hd1 ▸ List.mem_append_left _ he)
      obtain ⟨hrm0, hrm1⟩ := truncFromTop_budget
        (convolution A.probability_mass_function
          B.probability_mass_function).reverse τ hτ hlnn
      have hsplit : deltaSum A.discretization_base t
          (pairList A.probability_mass_function B.probability_mass_function) =
          deltaSum A.discretization_base t dd +
          deltaSum A.discretization_base t
            (truncFromTop (convolution A.probability_mass_function
              B.probability_mass_function).reverse τ).1 := by
        rw [← deltaSum_convolution _ _ _ _ hWA.2.2 hWB.2.2,
          ← deltaSum_reverse]
        conv_lhs => rw [hd1]
        rw [deltaSum_append]
      have hddle : deltaSum A.discretization_base t dd ≤ totalMass dd :=
        deltaSum_le_totalMass _ t dd hWA.1 ht hddnn
      have hdd0 : 0 ≤ deltaSum A.discretization_base t dd :=
        deltaSum_nonneg _ _ _
      unfold GetDeltaForEpsilon
      dsimp only
      rw [deltaSum_reverse, hsplit, hd2]
    all_goals linarith
  · have hOpt : A.estimate_type = EstimateType.kOptimistic := by
      cases h' : A.estimate_type
      · exact absurd h' hP
      · rfl
    have hτ0 : τ = 0 := by
      rcases hmode with h | h
      · exact absurd h hP
      · exact h
    subst hτ0
    have hno : ¬(A.estimate_type = EstimateType.kOptimistic ∧ (0:ℚ) < 0) := by
      simp
    rw [if_neg hno, if_neg hP]
    refine ⟨_, _, rfl, hfast, ?_, ?_⟩
    all_goals
      unfold GetDeltaForEpsilon
      dsimp only
      rw [deltaSum_convolution _ _ _ _ hWA.2.2 hWB.2.2]
    all_goals linarith

theorem fast_composed_delta_agrees_witness :
    ∃ (C : PLD) (d : ℚ),
      Compose ⟨2, 0, [((0:ℤ), (1:ℚ))], EstimateType.kPessimistic⟩
        ⟨2, 0, [((1:ℤ), (1:ℚ))], EstimateType.kPessimistic⟩ 1 = Except.ok C ∧
      GetDeltaForEpsilonForComposedPLD
        ⟨2, 0, [((0:ℤ), (1:ℚ))], EstimateType.kPessimistic⟩
        ⟨2, 0, [((1:ℤ), (1:ℚ))], EstimateType.kPessimistic⟩ 1 = Except.ok d ∧
      d ≤ GetDeltaForEpsilon C 1 ∧ GetDeltaForEpsilon C 1 ≤ d + 1 :=
  fast_composed_delta_agrees
    ⟨2, 0, [((0:ℤ), (1:ℚ))], EstimateType.kPessimistic⟩
    ⟨2, 0, [((1:ℤ), (1:ℚ))], EstimateType.kPessimistic⟩ 1 1
    rfl rfl ⟨by norm_num, le_refl 0, by simp⟩ ⟨by norm_num, le_refl 0, by simp⟩
    (by norm_num) (by norm_num) (Or.inl rfl)

/-! ### Serialization -/

/-- Least element of a list (or the default `d0` when empty). -/
def minListD {α : Type} [LinearOrder α] (d0 : α) : List α → α
  | [] => d0
  | x :: xs => xs.foldr min x

/-- Greatest element of a list (or the default `d0` when empty). -/
def maxListD {α : Type} [LinearOrder α] (d0 : α) : List α → α
  | [] => d0
  | x :: xs => xs.foldr max x

theorem foldr_min_le {α : Type} [LinearOrder α] (x : α) (xs : List α) :
    ∀ y ∈ x :: xs, xs.foldr min x ≤ y := by
  induction xs with
  | nil =>
    intro y hy
    rw [List.mem_singleton] at hy
    exact hy.ge
  | cons z zs ih =>
    intro y hy
    rcases List.mem_cons.mp hy with h | h
    · subst h
      exact le_trans (min_le_right _ _) (ih y (List.mem_cons_self _ _))
    · rcases List.mem_cons.mp h with h2 | h2
      · subst h2
        exact min_le_left _ _
      · exact le_trans (min_le_right _ _) (ih y (List.mem_cons_of_mem _ h2))

theorem le_foldr_max {α : Type} [LinearOrder α] (x : α) (xs : List α) :
    ∀ y ∈ x :: xs, y ≤ xs.foldr max x := by
  induction xs with
  | nil =>
    intro y hy
    rw [List.mem_singleton] at hy
    exact hy.le
  | cons z zs ih =>
    intro y hy
    rcases List.mem_cons.mp hy with h | h
    · subst h
      exact le_trans (ih y (List.mem_cons_self _ _)) (le_max_right _ _)
    · rcases List.mem_cons.mp h with h2 | h2
      · subst h2
        exact le_max_left _ _
      · exact le_trans (ih y (List.mem_cons_of_mem _ h2)) (le_max_right _ _)

theorem minListD_le {α : Type} [LinearOrder α] (d0 : α) (l : List α) :
    ∀ y ∈ l, minListD d0 l ≤ y := by
  cases l with
  | nil => intro y hy; cases hy
  | cons x xs => exact foldr_min_le x xs

theorem le_maxListD {α : Type} [LinearOrder α] (d0 : α) (l : List α) :
    ∀ y ∈ l, y ≤ maxListD d0 l := by
  cases l with
  | nil => intro y hy; cases hy
  | cons x xs => exact le_foldr_max x xs

theorem windowKeys_bounds (n : ℕ) :
    ∀ (base : ℤ), ∀ k ∈ windowKeys base n, base ≤ k ∧ k < base + n := by
  induction n with
  | zero => intro base k hk; cases hk
  | succ n ih =>
    intro base k hk
    rcases List.mem_cons.mp hk with h | h
    · subst h; omega
    · have := ih (base + 1) k h
      omega

theorem mem_windowKeys (n : ℕ) :
    ∀ (base k : ℤ), base ≤ k → k < base + n → k ∈ windowKeys base n := by
  induction n with
  | zero => intro base k h1 h2; omega
  | succ n ih =>
    intro base k h1 h2
    by_cases hk : k = base
    · subst hk; exact List.mem_cons_self _ _
    · exact List.mem_cons_of_mem _ (ih (base + 1) k (by omega) (by omega))

theorem windowKeys_nodup (n : ℕ) : ∀ base : ℤ, (windowKeys base n).Nodup := by
  induction n with
  | zero => intro base; exact List.nodup_nil
  | succ n ih =>
    intro base
    rw [windowKeys, List.nodup_cons]
    refine ⟨fun hmem => ?_, ih (base + 1)⟩
    have := windowKeys_bounds n (base + 1) base hmem
    omega

/-- The C++ `serialization::PrivacyLossDistribution` proto shape
(spec section 6): the grid constant, the infinity mass, and the PMF as a
`min_index` plus the masses of consecutive indices. -/
structure SerializedPLD where
  discretization_base : ℚ
  infinity_mass : ℚ
  min_index : ℤ
  masses : List ℚ
deriving DecidableEq, Repr

/-- Masses of `n` consecutive indices of `l` starting at `base`. -/
def denseFrom (l : PMFEntries) : ℤ → ℕ → List ℚ
  | _, 0 => []
  | base, n+1 => mass l base :: denseFrom l (base + 1) n

/-- Cells rebuilt from a dense mass run starting at `base`. -/
def enumFrom : ℤ → List ℚ → PMFEntries
  | _, [] => []
  | base, m :: ms => (base, m) :: enumFrom (base + 1) ms

/-- Modelled from the spec (section 6): `Serialize` — only pessimistic
PLDs may be serialized; the output captures exactly the grid constant,
the infinity mass and the PMF as (min_index, consecutive masses). -/
def Serialize (P : PLD) : Except PLDError SerializedPLD :=
  if P.estimate_type = EstimateType.kOptimistic then
    Except.error PLDError.unsupportedEstimateType
  else
    Except.ok ⟨P.discretization_base, P.infinity_mass,
      minListD 0 (P.probability_mass_function.map Prod.fst),
      denseFrom P.probability_mass_function
        (minListD 0 (P.probability_mass_function.map Prod.fst))
        ((maxListD 0 (P.probability_mass_function.map Prod.fst) + 1 -
          minListD 0 (P.probability_mass_function.map Prod.fst)).toNat)⟩

/-- Modelled from the spec (section 6): `Deserialize` — rebuilds the PMF
from the dense run and validates the data-model invariants (positive grid
constant, masses non-negative, total mass plus infinity mass at most 1);
a deserialized PLD is implicitly pessimistic. -/
def Deserialize (S : SerializedPLD) : Except PLDError PLD :=
  if 0 < S.discretization_base ∧ 0 ≤ S.infinity_mass ∧
      (∀ m ∈ S.masses, 0 ≤ m) ∧ S.masses.sum + S.infinity_mass ≤ 1 then
    Except.ok ⟨S.discretization_base, S.infinity_mass,
      enumFrom S.min_index S.masses, EstimateType.kPessimistic⟩
  else Except.error PLDError.deserializationError

theorem enumFrom_denseFrom (l : PMFEntries) (n : ℕ) :
    ∀ base : ℤ, enumFrom base (denseFrom l base n) =
      (windowKeys base n).map fun k => (k, mass l k) := by
  induction n with
  | zero => intro base; rfl
  | succ n ih =>
    intro base
    rw [denseFrom, enumFrom, windowKeys, List.map_cons, ih (base + 1)]

theorem denseFrom_sum (l : PMFEntries) (n : ℕ) :
    ∀ base : ℤ, (denseFrom l base n).sum =
      ((windowKeys base n).map fun k => mass l k).sum := by
  induction n with
  | zero => intro base; rfl
  | succ n ih =>
    intro base
    rw [denseFrom, windowKeys, List.map_cons, List.sum_cons, List.sum_cons,
      ih (base + 1)]

theorem denseFrom_mem (l : PMFEntries) (n : ℕ) :
    ∀ (base : ℤ), ∀ m ∈ denseFrom l base n, ∃ k : ℤ, m = mass l k := by
  induction n with
  | zero => intro base m hm; cases hm
  | succ n ih =>
    intro base m hm
    rcases List.mem_cons.mp hm with h | h
    · exact ⟨base, h⟩
    · exact ih (base + 1) m h

theorem mass_window_map (l : PMFEntries) (K : List ℤ) (hK : K.Nodup) (k : ℤ) :
    mass (K.map fun k2 => (k2, mass l k2)) k =
      if k ∈ K then mass l k else 0 := by
  by_cases hk : k ∈ K
  · rw [if_pos hk]
    have hmem : ((k, mass l k) : ℤ × ℚ) ∈ K.map fun k2 => (k2, mass l k2) :=
      List.mem_map_of_mem _ hk
    have hnd : ((K.map fun k2 => (k2, mass l k2)).map Prod.fst).Nodup := by
      have hcomp : (Prod.fst ∘ fun k2 : ℤ => (k2, mass l k2)) = id := rfl
      rw [List.map_map, hcomp, List.map_id]
      exact hK
    exact mass_of_nodup _ hnd _ hmem
  · rw [if_neg hk]
    apply mass_eq_zero_of_keys
    intro e he hek
    rcases List.mem_map.mp he with ⟨k2, hk2, hke⟩
    rw [← hke] at hek
    exact hk (hek ▸ hk2)

theorem deltaSum_window_map (b t : ℚ) (l : PMFEntries) (K : List ℤ)
    (hK : K.Nodup) (hsub : ∀ e ∈ l, e.1 ∈ K) (hl : ∀ e ∈ l, 0 ≤ e.2) :
    deltaSum b t (K.map fun k => (k, mass l k)) = deltaSum b t l := by
  unfold deltaSum
  have h1 : ((K.map fun k => (k, mass l k)).map fun e =>
      max 0 (e.2 - t * e.2 * b ^ (-e.1))).sum =
      (K.map fun k => mass l k * max 0 (1 - t * b ^ (-k))).sum := by
    rw [List.map_map]
    apply congrArg
    apply List.map_congr_left
    intro k _
    exact max_term_factor _ t _ (mass_nonneg _ _ hl)
  rw [h1, sum_mass_mul _ _ hK hsub]
  apply congrArg
  apply List.map_congr_left
  intro e he
  rw [max_term_factor _ t _ (hl e he)]

/-- C9: serializing a well-formed pessimistic PLD succeeds, deserializing
the result succeeds, and the round trip preserves the grid constant, the
infinity mass and every PMF mass exactly — hence `GetDeltaForEpsilon`
agrees exactly at every epsilon. -/
theorem serialize_roundtrip (P : PLD)
    (hpess : P.estimate_type = EstimateType.kPessimistic)
    (hWF : WF P)
    (hsum : totalMass P.probability_mass_function + P.infinity_mass ≤ 1) :
    ∃ (S : SerializedPLD) (Q : PLD),
      Serialize P = Except.ok S ∧ Deserialize S = Except.ok Q ∧
      Q.discretization_base = P.discretization_base ∧
      Q.infinity_mass = P.infinity_mass ∧
      (∀ k : ℤ, mass Q.probability_mass_function k =
        mass P.probability_mass_function k) ∧
      ∀ t : ℚ, GetDeltaForEpsilon Q t = GetDeltaForEpsilon P t := by
  have hnopt : ¬ P.estimate_type = EstimateType.kOptimistic := by
    rw [hpess]; simp
  have hsub : ∀ e ∈ P.probability_mass_function,
      e.1 ∈ windowKeys (minListD 0 (P.probability_mass_function.map Prod.fst))
        ((maxListD 0 (P.probability_mass_function.map Prod.fst) + 1 -
          minListD 0 (P.probability_mass_function.map Prod.fst)).toNat) := by
    intro e he
    have hlo := minListD_le 0 (P.probability_mass_function.map Prod.fst) e.1
      (List.mem_map_of_mem Prod.fst he)
    have hhi := le_maxListD 0 (P.probability_mass_function.map Prod.fst) e.1
      (List.mem_map_of_mem Prod.fst he)
    apply mem_windowKeys _ _ _ hlo
    omega
  have hnd := windowKeys_nodup
    ((maxListD 0 (P.probability_mass_function.map Prod.fst) + 1 -
      minListD 0 (P.probability_mass_function.map Prod.fst)).toNat)
    (minListD 0 (P.probability_mass_function.map Prod.fst))
  have hvalid : 0 < P.discretization_base ∧ 0 ≤ P.infinity_mass ∧
      (∀ m ∈ denseFrom P.probability_mass_function
        (minListD 0 (P.probability_mass_function.map Prod.fst))
        ((maxListD 0 (P.probability_mass_function.map Prod.fst) + 1 -
          minListD 0 (P.probability_mass_function.map Prod.fst)).toNat), 0 ≤ m) ∧
      (denseFrom P.probability_mass_function
        (minListD 0 (P.probability_mass_function.map Prod.fst))
        ((maxListD 0 (P.probability_mass_function.map Prod.fst) + 1 -
          minListD 0 (P.probability_mass_function.map Prod.fst)).toNat)).sum +
        P.infinity_mass ≤ 1 := by
    refine ⟨hWF.1, hWF.2.1, ?_, ?_⟩
    · intro m hm
      obtain ⟨k, hk⟩ := denseFrom_mem _ _ _ m hm
      rw [hk]
      exact mass_nonneg _ _ hWF.2.2
    · rw [denseFrom_sum, sum_mass_total _ _ hnd hsub]
      exact hsum
  refine ⟨⟨P.discretization_base, P.infinity_mass,
      minListD 0 (P.probability_mass_function.map Prod.fst),
      denseFrom P.probability_mass_function
        (minListD 0 (P.probability_mass_function.map Prod.fst))
        ((maxListD 0 (P.probability_mass_function.map Prod.fst) + 1 -
          minListD 0 (P.probability_mass_function.map Prod.fst)).toNat)⟩,
    ⟨P.discretization_base, P.infinity_mass,
      enumFrom (minListD 0 (P.probability_mass_function.map Prod.fst))
        (denseFrom P.probability_mass_function
          (minListD 0 (P.probability_mass_function.map Prod.fst))
          ((maxListD 0 (P.probability_mass_function.map Prod.fst) + 1 -
            minListD 0 (P.probability_mass_function.map Prod.fst)).toNat)),
      EstimateType.kPessimistic⟩, ?_, ?_, rfl, rfl, ?_, ?_⟩
  · unfold Serialize
    rw [if_neg hnopt]
  · unfold Deserialize
    rw [if_pos hvalid]
  · intro k
    dsimp only
    rw [enumFrom_denseFrom, mass_window_map _ _ hnd]
    by_cases hk : k ∈ windowKeys (minListD 0 (P.probability_mass_function.map Prod.fst))
        ((maxListD 0 (P.probability_mass_function.map Prod.fst) + 1 -
          minListD 0 (P.probability_mass_function.map Prod.fst)).toNat)
    · rw [if_pos hk]
    · rw [if_neg hk]
      symm
      apply mass_eq_zero_of_keys
      intro e he hek
      exact hk (hek ▸ hsub e he)
  · intro t
    unfold GetDeltaForEpsilon
    dsimp only
    rw [enumFrom_denseFrom, deltaSum_window_map _ _ _ _ hnd hsub hWF.2.2]

theorem serialize_roundtrip_witness :
    ∃ (S : SerializedPLD) (Q : PLD),
      Serialize ⟨2, 0, [((0:ℤ), (1:ℚ))], EstimateType.kPessimistic⟩ =
        Except.ok S ∧
      Deserialize S = Except.ok Q ∧
      Q.discretization_base = 2 ∧
      Q.infinity_mass = 0 ∧
      (∀ k : ℤ, mass Q.probability_mass_function k =
        mass [((0:ℤ), (1:ℚ))] k) ∧
      ∀ t : ℚ, GetDeltaForEpsilon Q t =
        GetDeltaForEpsilon ⟨2, 0, [((0:ℤ), (1:ℚ))], EstimateType.kPessimistic⟩ t :=
  serialize_roundtrip ⟨2, 0, [((0:ℤ), (1:ℚ))], EstimateType.kPessimistic⟩
    rfl ⟨by norm_num, le_refl 0, by simp⟩ (by norm_num [totalMass])

/-! ### n-fold self-composition -/

/-- One unchecked pessimistic pairwise composition step (the body shared
by `Compose` and the square-and-multiply loop). -/
def composePessRaw (A B : PLD) (τ : ℚ) : PLD :=
  ⟨A.discretization_base,
   composedInfinityMass A B +
     (truncFromTop (convolution A.probability_mass_function
       B.probability_mass_function).reverse τ).2,
   (truncFromTop (convolution A.probability_mass_function
     B.probability_mass_function).reverse τ).1.reverse,
   A.estimate_type⟩

/-- Square-and-multiply accumulator loop over the binary digits of the
exponent (spec 4.4.2, self-composition). -/
def powComposeAux (budget : ℚ) : ℕ → ℕ → PLD → PLD → PLD
  | 0, _, _, acc => acc
  | fuel+1, n, sq, acc =>
    if n = 0 then acc
    else powComposeAux budget fuel (n / 2) (composePessRaw sq sq budget)
      (if n % 2 = 1 then composePessRaw acc sq budget else acc)

/-- Modelled from the spec (4.4.2, self-composition n times): the C++
overload is `void Compose(int num_times, double tail_mass_truncation)` —
a `void` return, so no failure value can reach the caller.  Its comment
restricts it to pessimistic estimates; on an optimistic PLD the receiver
is modelled as left unchanged.  On a pessimistic PLD: square-and-multiply
with a per-step truncation budget `τ / (2 * (log2 n + 1))`. -/
def ComposeNumTimes (P : PLD) (num_times : ℕ) (tail_mass_truncation : ℚ) : PLD :=
  if P.estimate_type = EstimateType.kOptimistic then P
  else powComposeAux (tail_mass_truncation / (2 * (Nat.log2 num_times + 1)))
    (num_times + 1) num_times P (CreateIdentity P.discretization_base)

/-- C7 (amended): on an optimistic PLD, `Serialize` fails with
`UnsupportedEstimateType`, and pairwise `Compose` with a positive
truncation budget fails with `UnsupportedEstimateType` for any compatible
partner; the n-fold self-composition `Compose(num_times, ...)` however is
declared `void` in the header and cannot surface a failure value — the
receiver just stays unchanged. -/
theorem optimistic_operations_restricted (P B : PLD) (n : ℕ) (τ : ℚ)
    (hOpt : P.estimate_type = EstimateType.kOptimistic) :
    Serialize P = Except.error PLDError.unsupportedEstimateType ∧
    (P.discretization_base = B.discretization_base →
      P.estimate_type = B.estimate_type → 0 < τ →
      Compose P B τ = Except.error PLDError.unsupportedEstimateType) ∧
    ComposeNumTimes P n τ = P := by
  refine ⟨?_, ?_, ?_⟩
  · unfold Serialize
    rw [if_pos hOpt]
  · intro h1 h2 h3
    unfold Compose
    rw [if_pos ⟨h1, h2⟩, if_pos ⟨hOpt, h3⟩]
  · unfold ComposeNumTimes
    rw [if_pos hOpt]

theorem optimistic_operations_restricted_witness :
    Serialize ⟨2, 0, [((0:ℤ), (1:ℚ))], EstimateType.kOptimistic⟩ =
      Except.error PLDError.unsupportedEstimateType ∧
    (((2:ℚ)) = 2 →
      EstimateType.kOptimistic = EstimateType.kOptimistic → (0:ℚ) < 1 →
      Compose ⟨2, 0, [((0:ℤ), (1:ℚ))], EstimateType.kOptimistic⟩
        ⟨2, 0, [((0:ℤ), (1:ℚ))], EstimateType.kOptimistic⟩ 1 =
        Except.error PLDError.unsupportedEstimateType) ∧
    ComposeNumTimes ⟨2, 0, [((0:ℤ), (1:ℚ))], EstimateType.kOptimistic⟩ 2 1 =
      ⟨2, 0, [((0:ℤ), (1:ℚ))], EstimateType.kOptimistic⟩ :=
  optimistic_operations_restricted
    ⟨2, 0, [((0:ℤ), (1:ℚ))], EstimateType.kOptimistic⟩
    ⟨2, 0, [((0:ℤ), (1:ℚ))], EstimateType.kOptimistic⟩ 2 1 rfl

/-- C7 counterexample: the claim says the n-fold self-composition of an
optimistic PLD "fails and surfaces an UnsupportedEstimateType failure
value to the caller", but the C++ overload returns `void` — there is no
failure channel.  Concretely, the modelled operation returns the PLD
itself (a value, not an error). -/
theorem compose_num_times_cannot_fail :
    ComposeNumTimes ⟨2, 0, [((0:ℤ), (1:ℚ))], EstimateType.kOptimistic⟩ 2 1 =
      ⟨2, 0, [((0:ℤ), (1:ℚ))], EstimateType.kOptimistic⟩ := by
  unfold ComposeNumTimes
  rw [if_pos rfl]

/-! ### GetEpsilonForDelta -/

theorem foldr_min_mem {α : Type} [LinearOrder α] (x : α) (xs : List α) :
    xs.foldr min x ∈ x :: xs := by
  induction xs with
  | nil => exact List.mem_singleton.mpr rfl
  | cons z zs ih =>
    rw [List.foldr_cons]
    rcases min_choice z (zs.foldr min x) with h | h
    · rw [h]
      exact List.mem_cons_of_mem _ (List.mem_cons_self _ _)
    · rw [h]
      rcases List.mem_cons.mp ih with h2 | h2
      · rw [h2]
        exact List.mem_cons_self _ _
      · exact List.mem_cons_of_mem _ (List.mem_cons_of_mem _ h2)

theorem foldr_max_mem {α : Type} [LinearOrder α] (x : α) (xs : List α) :
    xs.foldr max x ∈ x :: xs := by
  induction xs with
  | nil => exact List.mem_singleton.mpr rfl
  | cons z zs ih =>
    rw [List.foldr_cons]
    rcases max_choice z (zs.foldr max x) with h | h
    · rw [h]
      exact List.mem_cons_of_mem _ (List.mem_cons_self _ _)
    · rw [h]
      rcases List.mem_cons.mp ih with h2 | h2
      · rw [h2]
        exact List.mem_cons_self _ _
      · exact List.mem_cons_of_mem _ (List.mem_cons_of_mem _ h2)

theorem minListD_mem {α : Type} [LinearOrder α] (d0 : α) (l : List α)
    (h : l ≠ []) : minListD d0 l ∈ l := by
  cases l with
  | nil => exact absurd rfl h
  | cons x xs => exact foldr_min_mem x xs

theorem maxListD_mem {α : Type} [LinearOrder α] (d0 : α) (l : List α)
    (h : l ≠ []) : maxListD d0 l ∈ l := by
  cases l with
  | nil => exact absurd rfl h
  | cons x xs => exact foldr_max_mem x xs

/-- A hockey-stick cell term vanishes once `t` passes the cell's grid
point. -/
theorem max_term_zero (b tp : ℚ) (e : ℤ × ℚ) (hb : 0 < b) (he2 : 0 ≤ e.2)
    (h : b ^ e.1 ≤ tp) : max 0 (e.2 - tp * e.2 * b ^ (-e.1)) = 0 := by
  have hx : (0:ℚ) < b ^ e.1 := zpow_pos hb _
  have hge : 1 ≤ tp * b ^ (-e.1) := by
    rw [zpow_neg, ← div_eq_mul_inv]
    exact (one_le_div hx).mpr h
  apply max_eq_left
  have hmul := mul_le_mul_of_nonneg_left hge he2
  linarith

/-- A hockey-stick cell term is linear in `t` before the cell's grid
point. -/
theorem max_term_active (b tp : ℚ) (e : ℤ × ℚ) (hb : 0 < b) (he2 : 0 ≤ e.2)
    (h : tp ≤ b ^ e.1) :
    max 0 (e.2 - tp * e.2 * b ^ (-e.1)) = e.2 - tp * e.2 * b ^ (-e.1) := by
  have hx : (0:ℚ) < b ^ e.1 := zpow_pos hb _
  have hle : tp * b ^ (-e.1) ≤ 1 := by
    rw [zpow_neg, ← div_eq_mul_inv]
    exact (div_le_one hx).mpr h
  apply max_eq_right
  have hmul := mul_le_mul_of_nonneg_left hle he2
  linarith

/-- Grid points of the piecewise-linear map `t -> delta(t)`:
`1` (i.e. `eps = 0`) and the stored cells' values `b ^ i`. -/
def gridPoints (P : PLD) : List ℚ :=
  1 :: P.probability_mass_function.map fun e => P.discretization_base ^ e.1

/-- Constant coefficient of `delta` on the segment just right of `u`:
infinity mass plus the masses of the still-active cells. -/
def Cfun (P : PLD) (u : ℚ) : ℚ :=
  P.infinity_mass + (P.probability_mass_function.map fun e =>
    if u < P.discretization_base ^ e.1 then e.2 else 0).sum

/-- Slope coefficient of `delta` on the segment just right of `u`. -/
def Dfun (P : PLD) (u : ℚ) : ℚ :=
  (P.probability_mass_function.map fun e =>
    if u < P.discretization_base ^ e.1 then
      e.2 * P.discretization_base ^ (-e.1) else 0).sum

/-- Where the segment right of `u` crosses the target `K`. -/
def solveAt (P : PLD) (K u : ℚ) : ℚ :=
  if Dfun P u = 0 then u else (Cfun P u - K) / Dfun P u

/-- All optima candidates: grid points and per-segment crossings. -/
def epsCandidates (P : PLD) (K : ℚ) : List ℚ :=
  gridPoints P ++ (gridPoints P).map (solveAt P K)

/-- The candidates that are feasible: at least `1` (epsilon at least 0)
and achieving divergence at most `K`. -/
def validCandidates (P : PLD) (K : ℚ) : List ℚ :=
  (epsCandidates P K).filter fun c =>
    decide (1 ≤ c ∧ GetDeltaForEpsilon P c ≤ K)

/-- Modelled from the spec (4.4.1): `GetEpsilonForDelta` — the smallest
non-negative epsilon with `delta(eps) <= K`, `+infinity` (`none`) when
`K <= infinity_mass`.  The C++ binary search (tolerance `2^-40`) is
modelled by its exact limit: over `ℚ`, `delta` is piecewise linear in
`t = e^eps`, so the least feasible `t` is attained at a grid point or a
segment crossing and is computed exactly (tolerance 0). -/
def GetEpsilonForDelta (P : PLD) (K : ℚ) : Option ℚ :=
  if K ≤ P.infinity_mass then none
  else some (minListD 1 (validCandidates P K))

/-- On any interval free of grid points, `delta` is the affine map
`t -> Cfun - Dfun * t`. -/
theorem delta_affine (P : PLD) (u t tp : ℚ)
    (hb : 0 < P.discretization_base)
    (hm : ∀ e ∈ P.probability_mass_function, 0 ≤ e.2)
    (hsplit : ∀ e ∈ P.probability_mass_function,
      P.discretization_base ^ e.1 ≤ u ∨ t < P.discretization_base ^ e.1)
    (h1 : u ≤ tp) (h2 : tp ≤ t) :
    GetDeltaForEpsilon P tp = Cfun P u - Dfun P u * tp := by
  unfold GetDeltaForEpsilon deltaSum Cfun Dfun
  have hpoint : ∀ e ∈ P.probability_mass_function,
      max 0 (e.2 - tp * e.2 * P.discretization_base ^ (-e.1)) =
      (if u < P.discretization_base ^ e.1 then e.2 else 0) -
        (if u < P.discretization_base ^ e.1 then
          e.2 * P.discretization_base ^ (-e.1) else 0) * tp := by
    intro e he
    by_cases hc : u < P.discretization_base ^ e.1
    · have hlt : t < P.discretization_base ^ e.1 := by
        rcases hsplit e he with h | h
        · exact absurd h (not_le.mpr hc)
        · exact h
      rw [if_pos hc, if_pos hc,
        max_term_active _ tp e hb (hm e he) (le_of_lt (lt_of_le_of_lt h2 hlt))]
      ring
    · have hle : P.discretization_base ^ e.1 ≤ u := not_lt.mp hc
      rw [if_neg hc, if_neg hc,
        max_term_zero _ tp e hb (hm e he) (le_trans hle h1)]
      ring
  have hmaps : (P.probability_mass_function.map fun e =>
      max 0 (e.2 - tp * e.2 * P.discretization_base ^ (-e.1))) =
      P.probability_mass_function.map fun e =>
        (if u < P.discretization_base ^ e.1 then e.2 else 0) -
          (if u < P.discretization_base ^ e.1 then
            e.2 * P.discretization_base ^ (-e.1) else 0) * tp :=
    List.map_congr_left hpoint
  rw [hmaps, sum_map_sub, sum_map_mul_right]
  ring

/-- Past the largest grid point, `delta` is exactly the infinity mass. -/
theorem delta_at_top (P : PLD) (hb : 0 < P.discretization_base)
    (hm : ∀ e ∈ P.probability_mass_function, 0 ≤ e.2) :
    GetDeltaForEpsilon P (maxListD 1 (gridPoints P)) = P.infinity_mass := by
  unfold GetDeltaForEpsilon deltaSum
  have hzero : (P.probability_mass_function.map fun e =>
      max 0 (e.2 - maxListD 1 (gridPoints P) * e.2 *
        P.discretization_base ^ (-e.1))).sum = 0 := by
    rw [List.sum_eq_zero]
    intro x hx
    rcases List.mem_map.mp hx with ⟨e, he, hex⟩
    rw [← hex]
    apply max_term_zero _ _ _ hb (hm e he)
    apply le_maxListD
    exact List.mem_cons_of_mem _ (List.mem_map_of_mem _ he)
  rw [hzero, add_zero]

/-- C3: for every well-formed PLD and target `K` (`delta`):
`GetEpsilonForDelta` returns `+infinity` (`none`) whenever
`K <= InfinityMass()`; otherwise it returns the smallest `t0 >= 1`
(i.e. the smallest non-negative epsilon, at tolerance 0 in this exact
model) with `GetDeltaForEpsilon(t0) <= K` — in particular
`GetDeltaForEpsilon(GetEpsilonForDelta(K)) <= K` for every `K`
strictly above the infinity mass. -/
theorem getEpsilonForDelta_least (P : PLD) (hWF : WF P) (K : ℚ) :
    (K ≤ P.infinity_mass → GetEpsilonForDelta P K = none) ∧
    (P.infinity_mass < K →
      ∃ t0 : ℚ, GetEpsilonForDelta P K = some t0 ∧ 1 ≤ t0 ∧
        GetDeltaForEpsilon P t0 ≤ K ∧
        ∀ t : ℚ, 1 ≤ t → GetDeltaForEpsilon P t ≤ K → t0 ≤ t) := by
  constructor
  · intro h
    unfold GetEpsilonForDelta
    rw [if_pos h]
  · intro hK
    have hnle : ¬ K ≤ P.infinity_mass := not_le.mpr hK
    unfold GetEpsilonForDelta
    rw [if_neg hnle]
    have humax1 : (1:ℚ) ≤ maxListD 1 (gridPoints P) :=
      le_maxListD 1 _ 1 (List.mem_cons_self _ _)
    have humaxδ : GetDeltaForEpsilon P (maxListD 1 (gridPoints P)) ≤ K := by
      rw [delta_at_top P hWF.1 hWF.2.2]
      exact le_of_lt hK
    have humaxmem : maxListD 1 (gridPoints P) ∈ validCandidates P K := by
      unfold validCandidates
      rw [List.mem_filter, decide_eq_true_eq]
      refine ⟨List.mem_append_left _ ?_, humax1, humaxδ⟩
      exact maxListD_mem 1 _ (List.cons_ne_nil _ _)
    have hvne : validCandidates P K ≠ [] := List.ne_nil_of_mem humaxmem
    have hmem := minListD_mem 1 _ hvne
    have hprops : 1 ≤ minListD 1 (validCandidates P K) ∧
        GetDeltaForEpsilon P (minListD 1 (validCandidates P K)) ≤ K := by
      have := hmem
      unfold validCandidates at this
      rw [List.mem_filter, decide_eq_true_eq] at this
      exact this.2
    refine ⟨minListD 1 (validCandidates P K), rfl, hprops.1, hprops.2, ?_⟩
    intro t h1t hδt
    have h1mem : (1:ℚ) ∈ (gridPoints P).filter fun c => decide (c ≤ t) := by
      rw [List.mem_filter, decide_eq_true_eq]
      exact ⟨List.mem_cons_self _ _, h1t⟩
    have hune : ((gridPoints P).filter fun c => decide (c ≤ t)) ≠ [] :=
      List.ne_nil_of_mem h1mem
    have humem := maxListD_mem 1 _ hune
    rw [List.mem_filter, decide_eq_true_eq] at humem
    obtain ⟨hu_grid, hu_le⟩ := humem
    have humax2 : ∀ v ∈ gridPoints P, v ≤ t →
        v ≤ maxListD 1 ((gridPoints P).filter fun c => decide (c ≤ t)) := by
      intro v hv hvt
      apply le_maxListD
      rw [List.mem_filter, decide_eq_true_eq]
      exact ⟨hv, hvt⟩
    have h1u : (1:ℚ) ≤ maxListD 1 ((gridPoints P).filter fun c => decide (c ≤ t)) :=
      humax2 1 (List.mem_cons_self _ _) h1t
    have hsplit : ∀ e ∈ P.probability_mass_function,
        P.discretization_base ^ e.1 ≤
          maxListD 1 ((gridPoints P).filter fun c => decide (c ≤ t)) ∨
        t < P.discretization_base ^ e.1 := by
      intro e he
      by_cases hbt : P.discretization_base ^ e.1 ≤ t
      · left
        exact humax2 _ (List.mem_cons_of_mem _ (List.mem_map_of_mem _ he)) hbt
      · right
        exact not_le.mp hbt
    by_cases hδu : GetDeltaForEpsilon P
        (maxListD 1 ((gridPoints P).filter fun c => decide (c ≤ t))) ≤ K
    · have humem2 : maxListD 1 ((gridPoints P).filter fun c => decide (c ≤ t)) ∈
          validCandidates P K := by
        unfold validCandidates
        rw [List.mem_filter, decide_eq_true_eq]
        exact ⟨List.mem_append_left _ hu_grid, h1u, hδu⟩
      exact le_trans (minListD_le 1 _ _ humem2) hu_le
    · push_neg at hδu
      have haffu := delta_affine P
        (maxListD 1 ((gridPoints P).filter fun c => decide (c ≤ t))) t
        (maxListD 1 ((gridPoints P).filter fun c => decide (c ≤ t)))
        hWF.1 hWF.2.2 hsplit (le_refl _) hu_le
      have hafft := delta_affine P
        (maxListD 1 ((gridPoints P).filter fun c => decide (c ≤ t))) t t
        hWF.1 hWF.2.2 hsplit hu_le (le_refl t)
      have hD : 0 < Dfun P (maxListD 1 ((gridPoints P).filter fun c => decide (c ≤ t))) := by
        by_contra hD0
        push_neg at hD0
        have hprod := mul_nonneg (neg_nonneg.mpr hD0) (sub_nonneg.mpr hu_le)
        rw [neg_mul] at hprod
        nlinarith [haffu, hafft, hδu, hδt]
      have hs_eq : Dfun P (maxListD 1 ((gridPoints P).filter fun c => decide (c ≤ t))) *
          ((Cfun P (maxListD 1 ((gridPoints P).filter fun c => decide (c ≤ t))) - K) /
            Dfun P (maxListD 1 ((gridPoints P).filter fun c => decide (c ≤ t)))) =
          Cfun P (maxListD 1 ((gridPoints P).filter fun c => decide (c ≤ t))) - K :=
        mul_div_cancel₀ _ (ne_of_gt hD)
      have hsu : maxListD 1 ((gridPoints P).filter fun c => decide (c ≤ t)) <
          (Cfun P (maxListD 1 ((gridPoints P).filter fun c => decide (c ≤ t))) - K) /
            Dfun P (maxListD 1 ((gridPoints P).filter fun c => decide (c ≤ t))) := by
        rw [lt_div_iff₀ hD]
        nlinarith [haffu, hδu]
      have hst : (Cfun P (maxListD 1 ((gridPoints P).filter fun c => decide (c ≤ t))) - K) /
            Dfun P (maxListD 1 ((gridPoints P).filter fun c => decide (c ≤ t))) ≤ t := by
        rw [div_le_iff₀ hD]
        nlinarith [hafft, hδt]
      have hδs : GetDeltaForEpsilon P
          ((Cfun P (maxListD 1 ((gridPoints P).filter fun c => decide (c ≤ t))) - K) /
            Dfun P (maxListD 1 ((gridPoints P).filter fun c => decide (c ≤ t)))) ≤ K := by
        have haffs := delta_affine P
          (maxListD 1 ((gridPoints P).filter fun c => decide (c ≤ t))) t
          ((Cfun P (maxListD 1 ((gridPoints P).filter fun c => decide (c ≤ t))) - K) /
            Dfun P (maxListD 1 ((gridPoints P).filter fun c => decide (c ≤ t))))
          hWF.1 hWF.2.2 hsplit (le_of_lt hsu) hst
        rw [haffs]
        linarith [hs_eq]
      have hsmem : (Cfun P (maxListD 1 ((gridPoints P).filter fun c => decide (c ≤ t))) - K) /
            Dfun P (maxListD 1 ((gridPoints P).filter fun c => decide (c ≤ t))) ∈
          validCandidates P K := by
        unfold validCandidates epsCandidates
        rw [List.mem_filter, decide_eq_true_eq]
        refine ⟨List.mem_append_right _ ?_, le_trans h1u (le_of_lt hsu), hδs⟩
        have hsolve : solveAt P K
            (maxListD 1 ((gridPoints P).filter fun c => decide (c ≤ t))) =
            (Cfun P (maxListD 1 ((gridPoints P).filter fun c => decide (c ≤ t))) - K) /
              Dfun P (maxListD 1 ((gridPoints P).filter fun c => decide (c ≤ t))) := by
          unfold solveAt
          rw [if_neg (ne_of_gt hD)]
        exact hsolve ▸ List.mem_map_of_mem (solveAt P K) hu_grid
      exact le_trans (minListD_le 1 _ _ hsmem) hst

theorem getEpsilonForDelta_least_witness :
    ((1:ℚ) ≤ (0:ℚ) →
      GetEpsilonForDelta ⟨2, 0, [((0:ℤ), (1:ℚ))], EstimateType.kPessimistic⟩ 1 = none) ∧
    ((0:ℚ) < 1 →
      ∃ t0 : ℚ,
        GetEpsilonForDelta ⟨2, 0, [((0:ℤ), (1:ℚ))], EstimateType.kPessimistic⟩ 1 =
          some t0 ∧ 1 ≤ t0 ∧
        GetDeltaForEpsilon ⟨2, 0, [((0:ℤ), (1:ℚ))], EstimateType.kPessimistic⟩ t0 ≤ 1 ∧
        ∀ t : ℚ, 1 ≤ t →
          GetDeltaForEpsilon ⟨2, 0, [((0:ℤ), (1:ℚ))], EstimateType.kPessimistic⟩ t ≤ 1 →
          t0 ≤ t) :=
  getEpsilonForDelta_least ⟨2, 0, [((0:ℤ), (1:ℚ))], EstimateType.kPessimistic⟩
    ⟨by norm_num, le_refl 0, by simp⟩ 1

/-- C8 (amended): the query operations `GetDeltaForEpsilon`,
`GetEpsilonForDelta`, `DiscretizationInterval`, `GetEstimateType`,
`InfinityMass` and `Pmf` always return a plain value — at most `+infinity`
(`none`) for `GetEpsilonForDelta`; the composed-delta query
`GetDeltaForEpsilonForComposedPLD` never fails on composable operands
(equal interval and estimate type) — though, being `StatusOr`, it does
fail on incompatible ones (see the counterexample). -/
theorem queries_never_fail :
    (∀ (P : PLD) (t : ℚ), ∃ d : ℚ, GetDeltaForEpsilon P t = d) ∧
    (∀ (P : PLD) (K : ℚ), GetEpsilonForDelta P K = none ∨
      ∃ t0 : ℚ, GetEpsilonForDelta P K = some t0) ∧
    (∀ P : PLD, ∃ h : ℚ, DiscretizationInterval P = h) ∧
    (∀ P : PLD, ∃ et : EstimateType, GetEstimateType P = et) ∧
    (∀ P : PLD, ∃ m : ℚ, InfinityMass P = m) ∧
    (∀ P : PLD, ∃ l : PMFEntries, Pmf P = l) ∧
    (∀ (A B : PLD) (t : ℚ),
      A.discretization_base = B.discretization_base →
      A.estimate_type = B.estimate_type →
      ∃ d : ℚ, GetDeltaForEpsilonForComposedPLD A B t = Except.ok d) := by
  refine ⟨fun P t => ⟨_, rfl⟩, ?_, fun P => ⟨_, rfl⟩, fun P => ⟨_, rfl⟩,
    fun P => ⟨_, rfl⟩, fun P => ⟨_, rfl⟩, ?_⟩
  · intro P K
    by_cases h : K ≤ P.infinity_mass
    · left
      unfold GetEpsilonForDelta
      rw [if_pos h]
    · right
      refine ⟨minListD 1 (validCandidates P K), ?_⟩
      unfold GetEpsilonForDelta
      rw [if_neg h]
  · intro A B t h1 h2
    refine ⟨composedInfinityMass A B +
      (A.probability_mass_function.map fun a =>
        (B.probability_mass_function.map fun b2 =>
          max 0 (a.2 * b2.2 - t * (a.2 * b2.2) *
            A.discretization_base ^ (-(a.1 + b2.1)))).sum).sum, ?_⟩
    unfold GetDeltaForEpsilonForComposedPLD
    rw [if_pos ⟨h1, h2⟩]

theorem queries_never_fail_witness :
    ∃ d : ℚ, GetDeltaForEpsilonForComposedPLD
      ⟨2, 0, [((0:ℤ), (1:ℚ))], EstimateType.kPessimistic⟩
      ⟨2, 0, [((0:ℤ), (1:ℚ))], EstimateType.kPessimistic⟩ 1 = Except.ok d :=
  queries_never_fail.2.2.2.2.2.2
    ⟨2, 0, [((0:ℤ), (1:ℚ))], EstimateType.kPessimistic⟩
    ⟨2, 0, [((0:ℤ), (1:ℚ))], EstimateType.kPessimistic⟩ 1 rfl rfl

/-- C8 counterexample: the composed-delta query is declared
`absl::StatusOr<double>` and validates composability first, so on two
PLDs with different discretization intervals it returns an
`IncompatiblePLDs` failure value — it is not failure-free as claimed. -/
theorem composed_delta_query_can_fail :
    GetDeltaForEpsilonForComposedPLD ⟨2, 0, [], EstimateType.kPessimistic⟩
      ⟨3, 0, [], EstimateType.kPessimistic⟩ 1 =
      Except.error PLDError.incompatiblePLDs := by
  unfold GetDeltaForEpsilonForComposedPLD
  rw [if_neg]
  intro h
  have h2 : (2:ℚ) = 3 := h.1
  norm_num at h2
